import Mathlib

/-!
Shallow embedding of `rheal/dggs_classes.py` (rhealpix-geo): the DGGS cell /
cell-collection algebra.  Suids are modelled structurally: a face label drawn
from the six zero-cells of the `auspix` parametrisation followed by a list of
base-9 digits (`N_sides = 3`, so digits live in `Fin 9`).  All operations are
translated from the source; comments note the few places where Python-level
representation details (tuples vs strings, `set` iteration order) are modelled
by deterministic list operations.
-/

namespace Rheal

open List

/-- Face labels of the six resolution-0 cells, in the order of
`parametrisations["auspix"]["zero_cells"] = ["N","O","P","Q","R","S"]`. -/
inductive ZeroCell
  | N
  | O
  | P
  | Q
  | R
  | S
  deriving DecidableEq, Fintype

/-- Cardinal directions used by the neighbour algorithm. -/
inductive Direction
  | up
  | down
  | left
  | right
  deriving DecidableEq, Fintype

/-- Position of a face label in the ordered `zero_cells` list
(`parametrisations[self.crs]["zero_cells"].index(x[0])` in `_rhealpix_order`). -/
def zero_cell_index : ZeroCell → Nat
  | .N => 0
  | .O => 1
  | .P => 2
  | .Q => 3
  | .R => 4
  | .S => 5

/-- Spatial unique identifier: a zero-cell face label followed by one digit in
`[0, N**2 - 1] = [0, 8]` per resolution level (the Python tuple
`(face, d1, ..., dk)`). -/
structure Suid where
  face : ZeroCell
  digits : List (Fin 9)
  deriving DecidableEq

/-- Resolution of a cell: `len(self.suids) - 1` in the source, i.e. the number
of digits after the face label. -/
def Suid.resolution (s : Suid) : Nat := s.digits.length

/-- Face half of the `n3_atomic_neighbours` table in `Cell.atomic_neighbours`:
the neighbouring face of each zero cell in each direction. -/
def atomic_neighbour_face : ZeroCell → Direction → ZeroCell
  | .O, .left => .R
  | .O, .right => .P
  | .O, .down => .S
  | .O, .up => .N
  | .P, .left => .O
  | .P, .right => .Q
  | .P, .down => .S
  | .P, .up => .N
  | .Q, .left => .P
  | .Q, .right => .R
  | .Q, .down => .S
  | .Q, .up => .N
  | .R, .left => .Q
  | .R, .right => .O
  | .R, .down => .S
  | .R, .up => .N
  | .N, .down => .O
  | .N, .right => .P
  | .N, .up => .Q
  | .N, .left => .R
  | .S, .up => .O
  | .S, .right => .P
  | .S, .down => .Q
  | .S, .left => .R

/-- Digit half of the `n3_atomic_neighbours` table: the neighbouring subcell
number of each digit `0..8` in each direction. -/
def atomic_neighbour_digit : Fin 9 → Direction → Fin 9
  | ⟨0, _⟩, .left => 2
  | ⟨0, _⟩, .right => 1
  | ⟨0, _⟩, .up => 6
  | ⟨0, _⟩, .down => 3
  | ⟨1, _⟩, .left => 0
  | ⟨1, _⟩, .right => 2
  | ⟨1, _⟩, .up => 7
  | ⟨1, _⟩, .down => 4
  | ⟨2, _⟩, .left => 1
  | ⟨2, _⟩, .right => 0
  | ⟨2, _⟩, .up => 8
  | ⟨2, _⟩, .down => 5
  | ⟨3, _⟩, .left => 5
  | ⟨3, _⟩, .right => 4
  | ⟨3, _⟩, .up => 0
  | ⟨3, _⟩, .down => 6
  | ⟨4, _⟩, .left => 3
  | ⟨4, _⟩, .right => 5
  | ⟨4, _⟩, .up => 1
  | ⟨4, _⟩, .down => 7
  | ⟨5, _⟩, .left => 4
  | ⟨5, _⟩, .right => 3
  | ⟨5, _⟩, .up => 2
  | ⟨5, _⟩, .down => 8
  | ⟨6, _⟩, .left => 8
  | ⟨6, _⟩, .right => 7
  | ⟨6, _⟩, .up => 3
  | ⟨6, _⟩, .down => 0
  | ⟨7, _⟩, .left => 6
  | ⟨7, _⟩, .right => 8
  | ⟨7, _⟩, .up => 4
  | ⟨7, _⟩, .down => 1
  | ⟨8, _⟩, .left => 7
  | ⟨8, _⟩, .right => 6
  | ⟨8, _⟩, .up => 5
  | ⟨8, _⟩, .down => 2
  | ⟨n + 9, h⟩, _ => absurd h (by omega)

/-- Border digits of the 3x3 subcell grid in each direction, from
`Cell.neighbour`: `up = set(range(N))`, `down`, `left`, `right` analogously. -/
def border_digits : Direction → List Nat
  | .up => List.range 3
  | .down => (List.range 3).map (fun i => (3 - 1) * 3 + i)
  | .left => (List.range 3).map (fun i => i * 3)
  | .right => (List.range 3).map (fun i => (i + 1) * 3 - 1)

/-- Membership of a digit in the border set of a direction
(`n not in border[direction]` test in `Cell.neighbour`). -/
def on_border (n : Fin 9) (d : Direction) : Bool := (border_digits d).contains n.val

/-- Back-to-front scan of the digit part of a suid in `Cell.neighbour`.  The
input list is the reversed digit list; `crossed` is the `crossed_all_borders`
flag.  While the flag is unset each digit is replaced by its atomic neighbour,
and the flag is set as soon as a digit off the border in direction `d` is seen;
once set, the remaining (coarser) digits are copied unchanged.  Returns the
produced (still reversed) digit list and the final flag. -/
def scan_rev (d : Direction) : Bool → List (Fin 9) → List (Fin 9) × Bool
  | crossed, [] => ([], crossed)
  | true, n :: rest =>
    let r := scan_rev d true rest
    (n :: r.1, r.2)
  | false, n :: rest =>
    let r := scan_rev d (!on_border n d) rest
    (atomic_neighbour_digit n d :: r.1, r.2)

/-- Pre-rotation neighbour suid from `Cell.neighbour`.  The face label is the
last element scanned: it is copied when a finer digit already left the border
path (`crossed_all_borders` true), and replaced by its atomic neighbour
otherwise. -/
def neighbour_raw (a : Suid) (d : Direction) : Suid :=
  let r := scan_rev d false a.digits.reverse
  if r.2 then ⟨a.face, r.1.reverse⟩ else ⟨atomic_neighbour_face a.face d, r.1.reverse⟩

/-- One anticlockwise quarter turn of a subcell number, from
`Cell.rotate_entry`: with the row-major child order `A[(i, j)] = 3 * i + j`,
the turn maps `A[(i, j)]` to `A[(j, N - 1 - i)] = 3 * j + (2 - i)`. -/
def rotate_digit (n : Fin 9) : Fin 9 :=
  ⟨3 * (n.val % 3) + (2 - n.val / 3), by have := n.isLt; omega⟩

/-- Composition of quarter turns in `Cell.rotate_entry`: `quarter_turns % 4`
applications of the single-turn permutation; zero turns return the digit
unchanged.  Resolution-0 face labels are fixed points of `rotate_entry` and are
handled in `rotate_suid` below. -/
def rotate_entry_digit (x : Fin 9) (quarter_turns : Nat) : Fin 9 :=
  match quarter_turns % 4 with
  | 1 => rotate_digit x
  | 2 => rotate_digit (rotate_digit x)
  | 3 => rotate_digit (rotate_digit (rotate_digit x))
  | _ => x

/-- Application of `Cell.rotate` to a whole suid: every digit is rotated and
the face label (a fixed point of `rotate_entry`) is unchanged. -/
def rotate_suid (s : Suid) (quarter_turns : Nat) : Suid :=
  ⟨s.face, s.digits.map (rotate_entry_digit · quarter_turns)⟩

/-- Quarter-turn count selected by the three `if`/`elif` pattern groups at the
end of `Cell.neighbour`, with `zero_cells[0] = N` and `zero_cells[5] = S`; a
fall-through (no pattern matches) means no rotation, encoded as 0 turns. -/
def quarter_turns_for (self0 n0 : ZeroCell) : Nat :=
  if (self0 = .S ∧ n0 = atomic_neighbour_face .S .left) ∨
     (self0 = atomic_neighbour_face .S .right ∧ n0 = .S) ∨
     (self0 = .N ∧ n0 = atomic_neighbour_face .N .right) ∨
     (self0 = atomic_neighbour_face .N .left ∧ n0 = .N) then 1
  else if (self0 = .S ∧ n0 = atomic_neighbour_face .S .down) ∨
     (self0 = atomic_neighbour_face .S .down ∧ n0 = .S) ∨
     (self0 = .N ∧ n0 = atomic_neighbour_face .N .up) ∨
     (self0 = atomic_neighbour_face .N .up ∧ n0 = .N) then 2
  else if (self0 = .S ∧ n0 = atomic_neighbour_face .S .right) ∨
     (self0 = atomic_neighbour_face .S .left ∧ n0 = .S) ∨
     (self0 = .N ∧ n0 = atomic_neighbour_face .N .left) ∨
     (self0 = atomic_neighbour_face .N .right ∧ n0 = .N) then 3
  else 0

/-- Full `Cell.neighbour`: scan for the pre-rotation suid, then rotate by the
quarter-turn count selected from the (origin face, neighbour face) pair.  The
Python code reads `neighbour0` from the pre-rotation suid; since rotation fixes
face labels this is the face of `neighbour_raw`. -/
def neighbour (a : Suid) (d : Direction) : Suid :=
  let nb := neighbour_raw a d
  rotate_suid nb (quarter_turns_for a.face nb.face)

/-- Opposite cardinal direction, as used in the neighbour-symmetry property. -/
def opposite : Direction → Direction
  | .up => .down
  | .down => .up
  | .left => .right
  | .right => .left

/-- Test from `Cell.overlaps`: Python zips the two suid tuples (face label
first, then digits) and reports a mismatch as soon as corresponding entries
differ; entries beyond the common length are ignored. -/
def overlaps (a b : Suid) : Bool :=
  if a.face = b.face then (a.digits.zip b.digits).all (fun p => p.1 = p.2) else false

/-- Immediate child of a cell with subcell number `j`. -/
def child (c : Suid) (j : Fin 9) : Suid := ⟨c.face, c.digits ++ [j]⟩

/-- All nine immediate children in subcell order, matching Python's
`product(range(N ** 2), repeat=1)` enumeration `0..8`. -/
def child_list (c : Suid) : List Suid := (List.finRange 9).map (child c)

/-- Cartesian power `itertools.product(base, repeat=n)` in lexicographic
order: the first coordinate varies slowest. -/
def tuples_of (base : List (Fin 9)) : Nat → List (List (Fin 9))
  | 0 => [[]]
  | n + 1 => base.flatMap (fun a => (tuples_of base n).map (a :: ·))

/-- Grouping key of `CellCollection._rhealpix_compress`: Python groups by
`cell[:-1]`, the suid tuple without its last entry.  For a resolution-0 cell
that slice is the empty tuple, which is not a valid suid; it is modelled as
`none`. -/
def parent_key (s : Suid) : Option Suid :=
  if s.digits = [] then none else some ⟨s.face, s.digits.dropLast⟩

/-- Compression pass of `CellCollection._rhealpix_compress`: group the suids by
`parent_key` (a Python dict, so groups appear in first-occurrence order and
each group keeps input order), replace any group of exactly `N**2 = 9` members
by its parent, and keep other groups unchanged.  When the 9-member group is the
resolution-0 group (key `none`), the source appends the empty tuple, which
fails suid validation downstream (in `_rhealpix_order` / `Cell.__init__`); this
is modelled as an error. -/
def rhealpix_compress (l : List Suid) : Except String (List Suid) :=
  if (l.map parent_key).dedup.any (fun k =>
      k.isNone && ((l.filter (fun s => decide (parent_key s = k))).length == 9)) then
    Except.error "compression produced an invalid empty suid"
  else
    Except.ok ((l.map parent_key).dedup.flatMap (fun k =>
      if (l.filter (fun s => decide (parent_key s = k))).length = 9 then
        match k with
        | some p => [p]
        | none => []
      else l.filter (fun s => decide (parent_key s = k))))

/-- Deduplication step `self.suids = list(set(self.suids))`: Python set
iteration order is unspecified (and, with the final sort, immaterial up to key
ties); the model keeps first occurrences. -/
def deduplicate (l : List Suid) : List Suid := l.dedup

/-- Strict ancestor `suid[0 : i + 1]` of a suid at digit depth `i`: the face
label plus the first `i` digits. -/
def ancestor (s : Suid) (i : Nat) : Suid := ⟨s.face, s.digits.take i⟩

/-- Inner loop of `CellCollection.absorb` for one suid `s`: for each strict
ancestor of `s` (depths `0 .. len(digits) - 1`), if the ancestor is present in
the current suid list, remove `s` (Python rebuilds the list through a set
difference, which the model renders as an order-preserving filter). -/
def absorb_step (cur : List Suid) (s : Suid) : List Suid :=
  (List.range s.digits.length).foldl
    (fun cur2 i => if ancestor s i ∈ cur2 then cur2.filter (fun x => decide (x ≠ s)) else cur2)
    cur

/-- Full `CellCollection.absorb`: iterate the inner loop over every suid of the
original list (Python's `for suid in self.suids` iterates the list object bound
at loop entry, while removals reassign `self.suids`). -/
def absorb (l : List Suid) : List Suid := l.foldl absorb_step l

/-- Sort key of `CellCollection._rhealpix_order`: the face label is replaced by
its `zero_cells` index and the digits are appended, and the resulting decimal
string is compared as an integer; the integer value is folded directly. -/
def order_key (s : Suid) : Nat :=
  (s.digits.map (fun d => d.val)).foldl (fun a d => a * 10 + d) (zero_cell_index s.face)

/-- Stable insertion into an ascending run: the new element goes after every
element whose key is less than or equal to its own. -/
def insert_sorted : List Suid → Suid → List Suid
  | [], x => [x]
  | y :: ys, x =>
    if order_key y ≤ order_key x then y :: insert_sorted ys x else x :: y :: ys

/-- Ordering step `sorted(nums, key=int)` of `_rhealpix_order`: a stable
ascending sort by `order_key`, realised as insertion sort (Python's `sorted` is
stable, and any stable ascending sort computes the same list). -/
def rhealpix_order (l : List Suid) : List Suid := l.foldl insert_sorted []

/-- Constructor pipeline of `CellCollection.__init__` on an already-typed cell
list.  A falsy `cells` argument (here: the empty list) short-circuits through
`empty()` into the empty-sentinel state before `standardise_input` runs, so the
"Cell Collections cannot be empty." value error of `standardise_input` is kept
but unreachable.  Otherwise the suids go through compress (unless suppressed),
deduplicate, absorb and order.  The `validate` step (all members share one
crs/kind) always passes here: the `Suid` type carries the single supported
`auspix`/`rHEALPix` parametrisation. -/
def cc_from_cells (cells : List Suid) (compress : Bool := true) :
    Except String (List Suid) :=
  if cells.isEmpty then Except.ok []
  else if cells.length = 0 then Except.error "Cell Collections cannot be empty."
  else
    match (if compress then rhealpix_compress cells else Except.ok cells) with
    | Except.error e => Except.error e
    | Except.ok suids => Except.ok (rhealpix_order (absorb (deduplicate suids)))

/-- Union `CellCollection.__add__`: `_matches` always passes in the single
supported crs/kind; `list(set(self.suids).union(set(other.suids)))` is modelled
as concatenation plus `dedup` (the set's iteration order is unspecified in the
source and the result is re-canonicalised either way), then the constructor
runs. -/
def cc_add (S T : List Suid) (compress : Bool := true) : Except String (List Suid) :=
  cc_from_cells ((S ++ T).dedup) compress

/-- Recursive pair test of `progressively_intersect` inside
`CellCollection.__sub__`: an overlapping left cell at resolution at or above
the right cell's is marked for removal; an overlapping coarser left cell is
replaced by its nine immediate children (`cell_one.children().cells`, which
equals `child_list` — see `children_default_eq`), each retested against the
same right cell; a non-overlapping left cell is retained.  Returns the
(retain, remove) contributions in the source's append order. -/
def prog_pair (c1 c2 : Suid) : List Suid × List Suid :=
  if overlaps c1 c2 then
    if c2.digits.length ≤ c1.digits.length then ([], [c1])
    else
      let rs := (child_list c1).attach.map (fun d => prog_pair d.1 c2)
      ((rs.map Prod.fst).flatten, (rs.map Prod.snd).flatten)
  else ([c1], [])
termination_by c2.digits.length - c1.digits.length
decreasing_by
  obtain ⟨j, _, hj⟩ := List.mem_map.mp d.2
  have hd : d.1.digits.length = c1.digits.length + 1 := by
    rw [← hj]; simp [child]
  simp only [hd]
  omega

/-- Outer double loop of `progressively_intersect`: every left cell is tested
against every right cell, with all (retain, remove) contributions accumulated
in loop order (the source appends to module-level accumulator lists that are
reset at the start of each `__sub__` call). -/
def prog_int (ones twos : List Suid) : List Suid × List Suid :=
  let rs := ones.flatMap (fun c1 => twos.map (fun c2 => prog_pair c1 c2))
  ((rs.map Prod.fst).flatten, (rs.map Prod.snd).flatten)

/-- Difference `CellCollection.__sub__`: run the pair tests, form
`list(set(cells_to_retain) - set(cells_to_remove))` (modelled, up to the
unspecified set order, as dedup plus filter), and rebuild through the
canonicalising constructor. -/
def cc_sub (S T : List Suid) : Except String (List Suid) :=
  let r := prog_int S T
  let overall := r.1.dedup.filter (fun s => decide (s ∉ r.2))
  cc_from_cells overall true

/-- Neighbour list of `Cell.neighbours` with `include_diagonals=True`: the four
cardinal neighbours in source order, then (for positive resolution) the four
diagonal composites. -/
def neighbours_list (c : Suid) : List Suid :=
  [Direction.up, Direction.down, Direction.left, Direction.right].map (neighbour c) ++
    (if 0 < c.digits.length then
      [neighbour (neighbour c Direction.left) Direction.up,
       neighbour (neighbour c Direction.left) Direction.down,
       neighbour (neighbour c Direction.right) Direction.up,
       neighbour (neighbour c Direction.right) Direction.down]
     else [])

/-- Full `Cell.neighbours`: the neighbour list wrapped in a canonicalising
`CellCollection`. -/
def cell_neighbours (c : Suid) : Except String (List Suid) :=
  cc_from_cells (neighbours_list c) true

/-- Interleaving `chain.from_iterable(zip(left, right, top, bottom))` from
`Cell.border`: the four equal-length edge lists are zipped positionwise and
flattened. -/
def interleave4 : List (List (Fin 9)) → List (List (Fin 9)) → List (List (Fin 9)) →
    List (List (Fin 9)) → List (List (Fin 9))
  | a :: ra, b :: rb, c :: rc, d :: rd => a :: b :: c :: d :: interleave4 ra rb rc rd
  | _, _, _, _ => []

/-- Border of a cell at a deeper resolution, from `Cell.border`: with no
resolution the cell itself; otherwise the union of the four Cartesian-power
edges appended to the suid, deduplicated (`set(...)`) and wrapped in a
`CellCollection`.  The source computes `resolution - self.resolution` with
Python integers and would raise inside `itertools.product` for a negative
repeat; the model uses truncated subtraction and is only invoked (from
`cc_neighbours`) with `resolution` at or above the cell's. -/
def border (c : Suid) (resolution : Option Nat) : Except String (List Suid) :=
  match resolution with
  | none => Except.ok [c]
  | some res =>
    let delta := res - c.digits.length
    let left_edge := tuples_of [0, 3, 6] delta
    let right_edge := tuples_of [2, 5, 8] delta
    let top_edge := tuples_of [0, 1, 2] delta
    let bottom_edge := tuples_of [6, 7, 8] delta
    let all_edges := (interleave4 left_edge right_edge top_edge bottom_edge).dedup
    cc_from_cells (all_edges.map (fun t => ⟨c.face, c.digits ++ t⟩)) true

/-- Maximum member resolution (`self.max_resolution`); the empty sentinel has
`None` in the source, modelled as 0 (never consulted by the claims on the
sentinel). -/
def max_resolution (l : List Suid) : Nat :=
  (l.map (fun s => s.digits.length)).foldl max 0

/-- Unfolding of the recursive `cell.border(resolution).neighbours()` call in
`CellCollection.neighbours`: the border collection's members are all at its
maximum resolution, so that recursive call always takes the uniform branch —
union the cell-level neighbours of every member, then subtract the collection
itself. -/
def cc_neighbours_flat (T : List Suid) : Except String (List Suid) := do
  let all ← T.foldlM (fun acc cell => do
      let cn ← cell_neighbours cell
      cc_add acc cn) ([] : List Suid)
  cc_sub all T

/-- Resolution dispatch at the top of `CellCollection.neighbours`.  `not
resolution` is true in Python both for `None` and for `0`, so those fall back
to the collection's maximum resolution; a truthy resolution below the maximum
raises the value error. -/
def neighbours_resolution (S : List Suid) (resolution : Option Nat) :
    Except String Nat :=
  match resolution with
  | none => Except.ok (max_resolution S)
  | some r =>
    if r = 0 then Except.ok (max_resolution S)
    else if r < max_resolution S then
      Except.error "Resolution must be at or greater than the CellCollection's max resolution in order to provide a sensible set of neighbouring cells"
    else Except.ok r

/-- Aggregate `CellCollection.neighbours(resolution=None)`.  Each member below
the target resolution contributes the neighbours of its border refinement,
others contribute their own neighbours; the accumulated union finally has the
original collection subtracted. -/
def cc_neighbours (S : List Suid) (resolution : Option Nat) :
    Except String (List Suid) := do
  let res ← neighbours_resolution S resolution
  let all ← S.foldlM (fun acc cell =>
      if cell.digits.length < res then do
        let b ← border cell (some res)
        let bn ← cc_neighbours_flat b
        cc_add acc bn
      else do
        let cn ← cell_neighbours cell
        cc_add acc cn) ([] : List Suid)
  cc_sub all S

/-- Default `children` of a single cell, from `Cell.children`: `None` means one
level down; a target resolution equal to the cell's returns the cell itself,
one below raises, and deeper targets enumerate the Cartesian power of the digit
alphabet appended to the suid, wrapped uncompressed (`compress=False`) in a
`CellCollection`. -/
def children (c : Suid) (resolution : Option Int := none) : Except String (List Suid) :=
  let delta : Int := match resolution with
    | none => 1
    | some r => r - (c.digits.length : Int)
  if delta = 0 then Except.ok [c]
  else if delta < 0 then
    Except.error "Resolution for children must be greater than or equal to the cell's resolution"
  else cc_from_cells ((tuples_of (List.finRange 9) delta.toNat).map
    (fun t => ⟨c.face, c.digits ++ t⟩)) false

/-- Character of a face label in the string form of a suid. -/
def face_char : ZeroCell → Char
  | .N => 'N'
  | .O => 'O'
  | .P => 'P'
  | .Q => 'Q'
  | .R => 'R'
  | .S => 'S'

/-- Character of a digit in the string form of a suid (`str(i)` in the
source). -/
def digit_char : Fin 9 → Char
  | ⟨0, _⟩ => '0'
  | ⟨1, _⟩ => '1'
  | ⟨2, _⟩ => '2'
  | ⟨3, _⟩ => '3'
  | ⟨4, _⟩ => '4'
  | ⟨5, _⟩ => '5'
  | ⟨6, _⟩ => '6'
  | ⟨7, _⟩ => '7'
  | ⟨8, _⟩ => '8'
  | ⟨n + 9, h⟩ => absurd h (by omega)

/-- Character list of `Cell.__repr__`: face label character followed by the
digit characters. -/
def suid_chars (s : Suid) : List Char := face_char s.face :: s.digits.map digit_char

/-- String form of a single suid. -/
def suid_str (s : Suid) : String := ⟨suid_chars s⟩

/-- Space join `" ".join(self.suids)` used by `CellCollection.__repr__`. -/
def join_space : List String → String
  | [] => ""
  | [s] => s
  | s :: rest => s ++ " " ++ join_space rest

/-- String form of `CellCollection.__repr__`: the member suids space-separated,
or the fixed sentinel text when the suid list is empty. -/
def cc_repr (suids : List Suid) : String :=
  match suids with
  | [] => "Empty CellCollection"
  | _ => join_space (suids.map suid_str)

/-- Character-level mirror of `join_space`, used to reason about the rendered
collection string. -/
def join_chars : List (List Char) → List Char
  | [] => []
  | [s] => s
  | s :: rest => s ++ ' ' :: join_chars rest

/-- Decimal folding of a digit string onto an initial value; `order_key` is
`nfold` of the face index over the digit values. -/
def nfold (i : Nat) (ds : List Nat) : Nat := ds.foldl (fun a d => a * 10 + d) i

/-- Presence of a complete nine-member sibling group among the suids of a
collection: some member has a parent all of whose children are members. -/
def has_full_sibling_group (l : List Suid) : Bool :=
  l.any (fun s =>
    match parent_key s with
    | none => false
    | some p => (child_list p).all (fun c => decide (c ∈ l)))

/-- Canonical ascending-key ordering predicate for suid lists (the contract of
`_rhealpix_order`). -/
def KeySorted (l : List Suid) : Prop :=
  List.Pairwise (fun a b => order_key a ≤ order_key b) l

/-- The 81 resolution-2 descendants of the face cell P, in row-major order. -/
def descendants81 : List Suid :=
  (List.finRange 9).flatMap (fun i => (List.finRange 9).map (fun j => (⟨.P, [i, j]⟩ : Suid)))

/-- The nine resolution-1 children of the face cell P. -/
def children_of_P : List Suid := (List.finRange 9).map (fun j => (⟨.P, [j]⟩ : Suid))

/-! ### Facts about the atomic-neighbour tables (checked by enumeration) -/

theorem atomic_face_ne (f : ZeroCell) (d : Direction) : atomic_neighbour_face f d ≠ f := by
  revert f d; decide

theorem atomic_digit_ne (n : Fin 9) (d : Direction) : atomic_neighbour_digit n d ≠ n := by
  revert n d; decide

theorem atomic_digit_border (n : Fin 9) (d : Direction) :
    on_border (atomic_neighbour_digit n d) (opposite d) = on_border n d := by
  revert n d; decide

theorem atomic_digit_inv (n : Fin 9) (d : Direction) :
    atomic_neighbour_digit (atomic_neighbour_digit n d) (opposite d) = n := by
  revert n d; decide

theorem quarter_turns_self (f : ZeroCell) : quarter_turns_for f f = 0 := by
  revert f; decide

/-! ### Scan lemmas for the neighbour algorithm -/

theorem scan_rev_true (d : Direction) (l : List (Fin 9)) : scan_rev d true l = (l, true) := by
  induction l with
  | nil => rfl
  | cons n rest ih => simp [scan_rev, ih]

theorem scan_rev_inv (d : Direction) (l l' : List (Fin 9)) (c : Bool)
    (h : scan_rev d false l = (l', c)) : scan_rev (opposite d) false l' = (l, c) := by
  induction l generalizing l' c with
  | nil =>
    simp only [scan_rev] at h
    obtain ⟨rfl, rfl⟩ := Prod.mk.injEq .. ▸ h
    rfl
  | cons n rest ih =>
    by_cases hb : on_border n d
    · simp only [scan_rev, hb, Bool.not_true] at h
      obtain ⟨hl, hc⟩ := Prod.mk.injEq .. ▸ h
      have ih' := ih (scan_rev d false rest).1 (scan_rev d false rest).2 rfl
      subst hl hc
      simp only [scan_rev, atomic_digit_border, hb, Bool.not_true, ih']
      simp [atomic_digit_inv]
    · simp only [scan_rev, hb, Bool.not_false, scan_rev_true] at h
      obtain ⟨hl, hc⟩ := Prod.mk.injEq .. ▸ h
      subst hl hc
      simp only [scan_rev, atomic_digit_border, hb, Bool.not_false, scan_rev_true]
      simp [atomic_digit_inv]

theorem scan_rev_ne (d : Direction) (l l' : List (Fin 9))
    (h : scan_rev d false l = (l', true)) : l' ≠ l := by
  cases l with
  | nil => simp [scan_rev] at h
  | cons n rest =>
    simp only [scan_rev] at h
    obtain ⟨hl, _⟩ := Prod.mk.injEq .. ▸ h
    intro he
    rw [he] at hl
    injection hl with h1 _
    exact atomic_digit_ne n d h1

/-! ### Neighbour facts -/

theorem rotate_suid_zero (s : Suid) : rotate_suid s 0 = s := by
  simp [rotate_suid, rotate_entry_digit]

theorem rotate_suid_face (s : Suid) (q : Nat) : (rotate_suid s q).face = s.face := rfl

theorem neighbour_face (a : Suid) (d : Direction) :
    (neighbour a d).face = (neighbour_raw a d).face := rfl

/-- Claim C4's content as a reusable lemma: a neighbour step that keeps the
face label is inverted by the opposite step. -/
theorem neighbour_symm (a : Suid) (d : Direction)
    (h : (neighbour a d).face = a.face) : neighbour (neighbour a d) (opposite d) = a := by
  have hface : (neighbour_raw a d).face = a.face := h
  rcases hscan : scan_rev d false a.digits.reverse with ⟨l', c⟩
  cases c with
  | false =>
    exfalso
    have : (neighbour_raw a d).face = atomic_neighbour_face a.face d := by
      simp [neighbour_raw, hscan]
    exact atomic_face_ne a.face d (by rw [← this, hface])
  | true =>
    have hraw : neighbour_raw a d = ⟨a.face, l'.reverse⟩ := by
      simp [neighbour_raw, hscan]
    have hnb : neighbour a d = ⟨a.face, l'.reverse⟩ := by
      rw [neighbour, hraw, quarter_turns_self, rotate_suid_zero]
    have hscan2 : scan_rev (opposite d) false l' = (a.digits.reverse, true) :=
      scan_rev_inv d _ _ _ hscan
    have hraw2 : neighbour_raw ⟨a.face, l'.reverse⟩ (opposite d) = a := by
      simp [neighbour_raw, List.reverse_reverse, hscan2]
    have hfin : neighbour ⟨a.face, l'.reverse⟩ (opposite d) =
        rotate_suid a (quarter_turns_for a.face a.face) := by
      simp only [neighbour, hraw2]
    rw [hnb, hfin, quarter_turns_self, rotate_suid_zero]

/-- Core of the amended claim C9: a cardinal neighbour never equals the cell
itself. -/
theorem neighbour_ne (a : Suid) (d : Direction) : neighbour a d ≠ a := by
  rcases hscan : scan_rev d false a.digits.reverse with ⟨l', c⟩
  cases c with
  | false =>
    intro he
    have : (neighbour a d).face = atomic_neighbour_face a.face d := by
      rw [neighbour_face]; simp [neighbour_raw, hscan]
    rw [he] at this
    exact atomic_face_ne a.face d this.symm
  | true =>
    have hraw : neighbour_raw a d = ⟨a.face, l'.reverse⟩ := by
      simp [neighbour_raw, hscan]
    have hnb : neighbour a d = ⟨a.face, l'.reverse⟩ := by
      rw [neighbour, hraw, quarter_turns_self, rotate_suid_zero]
    rw [hnb]
    intro he
    have hdig : l'.reverse = a.digits := congrArg Suid.digits he
    have : l' = a.digits.reverse := by
      rw [← hdig, List.reverse_reverse]
    exact scan_rev_ne d _ _ hscan this

/-! ### Overlap lemmas -/

theorem zip_all_eq_iff (xs ys : List (Fin 9)) :
    ((xs.zip ys).all fun p => p.1 = p.2) = true ↔
      (∃ t, ys = xs ++ t) ∨ (∃ t, xs = ys ++ t) := by
  induction xs generalizing ys with
  | nil => simp
  | cons x xs ih =>
    cases ys with
    | nil => simp
    | cons y ys =>
      simp only [List.zip_cons_cons, List.all_cons, Bool.and_eq_true, decide_eq_true_eq, ih,
        List.cons_append, List.cons.injEq]
      constructor
      · rintro ⟨rfl, ht | ht⟩
        · exact Or.inl (by simpa using ht)
        · exact Or.inr (by simpa using ht)
      · rintro (⟨t, rfl, rfl⟩ | ⟨t, rfl, rfl⟩)
        · exact ⟨rfl, Or.inl ⟨t, rfl⟩⟩
        · exact ⟨rfl, Or.inr ⟨t, rfl⟩⟩

/-- Claim C5's characterisation as a reusable lemma. -/
theorem overlaps_iff (a b : Suid) :
    overlaps a b = true ↔
      a.face = b.face ∧ ((∃ t, b.digits = a.digits ++ t) ∨ (∃ t, a.digits = b.digits ++ t)) := by
  unfold overlaps
  by_cases hf : a.face = b.face
  · rw [if_pos hf, zip_all_eq_iff]
    simp [hf]
  · simp [hf]

theorem overlaps_comm (a b : Suid) : overlaps a b = overlaps b a := by
  by_cases h : overlaps a b = true
  · have h' := (overlaps_iff a b).mp h
    have : overlaps b a = true := (overlaps_iff b a).mpr ⟨h'.1.symm, h'.2.symm⟩
    rw [h, this]
  · by_cases h2 : overlaps b a = true
    · have h' := (overlaps_iff b a).mp h2
      exact absurd ((overlaps_iff a b).mpr ⟨h'.1.symm, h'.2.symm⟩) h
    · rw [Bool.eq_false_iff.mpr h, Bool.eq_false_iff.mpr h2]

theorem overlaps_refl (a : Suid) : overlaps a a = true :=
  (overlaps_iff a a).mpr ⟨rfl, Or.inl ⟨[], by simp⟩⟩

/-! ### Absorb: characterisation of the removal loop -/

theorem ancestor_digits_length (s : Suid) (i : Nat) (h : i < s.digits.length) :
    (ancestor s i).digits.length = i := by
  simp [ancestor, List.length_take, Nat.min_eq_left (Nat.le_of_lt h)]

theorem ancestor_ne (s : Suid) (i : Nat) (h : i < s.digits.length) : ancestor s i ≠ s := by
  intro he
  have h2 := congrArg (fun x => x.digits.length) he
  simp only [ancestor, List.length_take] at h2
  omega

theorem ancestor_ancestor (s : Suid) (i j : Nat) (h : j ≤ i) :
    ancestor (ancestor s i) j = ancestor s j := by
  simp [ancestor, List.take_take, Nat.min_eq_left h]

theorem absorb_inner_eq (s : Suid) (is : List Nat) (cur : List Suid)
    (hne : ∀ i ∈ is, ancestor s i ≠ s) :
    (is.foldl (fun cur2 i =>
        if ancestor s i ∈ cur2 then cur2.filter (fun x => decide (x ≠ s)) else cur2) cur)
      = if ∃ i ∈ is, ancestor s i ∈ cur then cur.filter (fun x => decide (x ≠ s)) else cur := by
  induction is generalizing cur with
  | nil => simp
  | cons i is ih =>
    simp only [List.foldl_cons]
    by_cases hc : ancestor s i ∈ cur
    · rw [if_pos hc, ih _ (fun j hj => hne j (List.mem_cons_of_mem _ hj))]
      rw [if_pos (show ∃ j ∈ i :: is, ancestor s j ∈ cur from ⟨i, List.mem_cons_self i is, hc⟩)]
      split
      · simp [List.filter_filter]
      · rfl
    · rw [if_neg hc, ih _ (fun j hj => hne j (List.mem_cons_of_mem _ hj))]
      refine if_congr ?_ rfl rfl
      constructor
      · rintro ⟨j, hj, hm⟩
        exact ⟨j, List.mem_cons_of_mem _ hj, hm⟩
      · rintro ⟨j, hj, hm⟩
        rcases List.mem_cons.mp hj with rfl | hj'
        · exact absurd hm hc
        · exact ⟨j, hj', hm⟩

theorem absorb_step_eq (cur : List Suid) (s : Suid) :
    absorb_step cur s =
      if ∃ i ∈ List.range s.digits.length, ancestor s i ∈ cur then
        cur.filter (fun x => decide (x ≠ s))
      else cur :=
  absorb_inner_eq s _ cur (fun i hi => ancestor_ne s i (List.mem_range.mp hi))

theorem absorb_step_sublist (cur : List Suid) (s : Suid) : absorb_step cur s <+ cur := by
  rw [absorb_step_eq]
  split
  · exact List.filter_sublist _
  · exact List.Sublist.refl _

theorem foldl_absorb_sublist (todo : List Suid) (cur : List Suid) :
    todo.foldl absorb_step cur <+ cur := by
  induction todo generalizing cur with
  | nil => exact List.Sublist.refl _
  | cons t rest ih => exact (ih (absorb_step cur t)).trans (absorb_step_sublist cur t)

theorem absorb_sublist (l : List Suid) : absorb l <+ l := foldl_absorb_sublist l l

theorem foldl_absorb_keep (todo : List Suid) (cur L : List Suid) (x : Suid)
    (hx : x ∈ cur) (hcur : cur ⊆ L)
    (hanc : ∀ i ∈ List.range x.digits.length, ancestor x i ∉ L) :
    x ∈ todo.foldl absorb_step cur := by
  induction todo generalizing cur with
  | nil => exact hx
  | cons t rest ih =>
    have hx' : x ∈ absorb_step cur t := by
      rw [absorb_step_eq]
      split
      · next hcond =>
        by_cases hxt : x = t
        · exfalso
          subst hxt
          obtain ⟨i, hi, hmem⟩ := hcond
          exact hanc i hi (hcur hmem)
        · exact List.mem_filter.mpr ⟨hx, by simp [hxt]⟩
      · exact hx
    exact ih (absorb_step cur t) hx' ((absorb_step_sublist cur t).subset.trans hcur)

theorem foldl_absorb_remove (todo : List Suid) (cur L : List Suid) (y p : Suid) (i : Nat)
    (hy : y ∈ todo) (hcur : cur ⊆ L)
    (hi : i < y.digits.length) (hanc : ancestor y i = p) (hpcur : p ∈ cur)
    (hpanc : ∀ j ∈ List.range p.digits.length, ancestor p j ∉ L) :
    y ∉ todo.foldl absorb_step cur := by
  induction todo generalizing cur with
  | nil => cases hy
  | cons t rest ih =>
    rcases List.mem_cons.mp hy with rfl | hyr
    · intro hmem
      simp only [List.foldl_cons] at hmem
      have hstep : y ∈ absorb_step cur y := (foldl_absorb_sublist rest _).subset hmem
      rw [absorb_step_eq,
        if_pos (show ∃ j ∈ List.range y.digits.length, ancestor y j ∈ cur from
          ⟨i, List.mem_range.mpr hi, hanc ▸ hpcur⟩)] at hstep
      have := (List.mem_filter.mp hstep).2
      simp at this
    · have hp' : p ∈ absorb_step cur t := by
        rw [absorb_step_eq]
        split
        · next hcond =>
          by_cases hpt : p = t
          · exfalso
            subst hpt
            obtain ⟨j, hj, hm⟩ := hcond
            exact hpanc j hj (hcur hm)
          · exact List.mem_filter.mpr ⟨hpcur, by simp [hpt]⟩
        · exact hpcur
      exact ih (absorb_step cur t) hyr ((absorb_step_sublist cur t).subset.trans hcur) hp'

theorem mem_absorb (l : List Suid) (x : Suid) :
    x ∈ absorb l ↔ x ∈ l ∧ ∀ i ∈ List.range x.digits.length, ancestor x i ∉ l := by
  constructor
  · intro hx
    have hxl : x ∈ l := (absorb_sublist l).subset hx
    refine ⟨hxl, ?_⟩
    by_contra hcon
    push_neg at hcon
    obtain ⟨i, hi, hmem⟩ := hcon
    have hex : ∃ j, j < x.digits.length ∧ ancestor x j ∈ l := ⟨i, List.mem_range.mp hi, hmem⟩
    have hj0 := Nat.find_spec hex
    have hpanc : ∀ k ∈ List.range (ancestor x (Nat.find hex)).digits.length,
        ancestor (ancestor x (Nat.find hex)) k ∉ l := by
      intro k hk hkl
      have hklen : k < Nat.find hex := by
        have := List.mem_range.mp hk
        rwa [ancestor_digits_length x (Nat.find hex) hj0.1] at this
      rw [ancestor_ancestor x (Nat.find hex) k (Nat.le_of_lt hklen)] at hkl
      exact Nat.find_min hex hklen ⟨Nat.lt_trans hklen hj0.1, hkl⟩
    exact absurd hx (foldl_absorb_remove l l l x (ancestor x (Nat.find hex)) (Nat.find hex)
      hxl (fun _ h => h) hj0.1 rfl hj0.2 hpanc)
  · rintro ⟨hxl, hanc⟩
    exact foldl_absorb_keep l l l x hxl (fun _ h => h) hanc

theorem absorb_no_strict_prefix (l : List Suid) (x y : Suid) (hx : x ∈ absorb l)
    (hy : y ∈ absorb l) (i : Nat) (hi : i < y.digits.length) (hanc : ancestor y i = x) :
    False :=
  ((mem_absorb l y).mp hy).2 i (List.mem_range.mpr hi)
    (hanc ▸ (absorb_sublist l).subset hx)

theorem foldl_absorb_id (todo : List Suid) (l : List Suid)
    (h : ∀ s ∈ todo, ¬∃ i ∈ List.range s.digits.length, ancestor s i ∈ l) :
    todo.foldl absorb_step l = l := by
  induction todo with
  | nil => rfl
  | cons t rest ih =>
    simp only [List.foldl_cons]
    rw [absorb_step_eq, if_neg (h t (List.mem_cons_self ..))]
    exact ih (fun s hs => h s (List.mem_cons_of_mem _ hs))

theorem absorb_eq_self (l : List Suid)
    (h : ∀ s ∈ l, ¬∃ i ∈ List.range s.digits.length, ancestor s i ∈ l) : absorb l = l :=
  foldl_absorb_id l l h

theorem absorb_perm (l l' : List Suid) (hnd : l.Nodup) (hp : l ~ l') :
    absorb l ~ absorb l' := by
  have hnd' : l'.Nodup := hp.nodup hnd
  refine (List.perm_ext_iff_of_nodup ((absorb_sublist l).nodup hnd)
    ((absorb_sublist l').nodup hnd')).mpr (fun a => ?_)
  rw [mem_absorb, mem_absorb]
  constructor <;> rintro ⟨h1, h2⟩
  · exact ⟨hp.mem_iff.mp h1, fun i hi hm => h2 i hi (hp.mem_iff.mpr hm)⟩
  · exact ⟨hp.mem_iff.mpr h1, fun i hi hm => h2 i hi (hp.mem_iff.mp hm)⟩

/-! ### Ordering lemmas -/

theorem insert_sorted_perm (l : List Suid) (x : Suid) : insert_sorted l x ~ x :: l := by
  induction l with
  | nil => rfl
  | cons y ys ih =>
    unfold insert_sorted
    split
    · exact (ih.cons y).trans (List.Perm.swap x y ys)
    · rfl

theorem foldl_insert_perm (l acc : List Suid) : l.foldl insert_sorted acc ~ acc ++ l := by
  induction l generalizing acc with
  | nil => simp
  | cons x xs ih =>
    simp only [List.foldl_cons]
    calc xs.foldl insert_sorted (insert_sorted acc x)
        ~ insert_sorted acc x ++ xs := ih _
      _ ~ (x :: acc) ++ xs := (insert_sorted_perm acc x).append_right xs
      _ ~ acc ++ x :: xs := by simpa using List.perm_middle.symm

theorem order_perm (l : List Suid) : rhealpix_order l ~ l := by
  simpa using foldl_insert_perm l []

theorem insert_sorted_pairwise (l : List Suid) (x : Suid) (h : KeySorted l) :
    KeySorted (insert_sorted l x) := by
  induction l with
  | nil => simp [insert_sorted, KeySorted]
  | cons y ys ih =>
    rw [KeySorted, List.pairwise_cons] at h
    unfold insert_sorted
    split
    · next hle =>
      rw [KeySorted, List.pairwise_cons]
      refine ⟨fun z hz => ?_, ih h.2⟩
      rcases List.mem_cons.mp ((insert_sorted_perm ys x).mem_iff.mp hz) with rfl | hz'
      · exact hle
      · exact h.1 z hz'
    · next hle =>
      rw [KeySorted, List.pairwise_cons]
      refine ⟨fun z hz => ?_, List.pairwise_cons.mpr h⟩
      rcases List.mem_cons.mp hz with rfl | hz'
      · exact Nat.le_of_not_le hle
      · exact Nat.le_trans (Nat.le_of_not_le hle) (h.1 z hz')

theorem order_sorted (l : List Suid) : KeySorted (rhealpix_order l) := by
  have hgen : ∀ (m acc : List Suid), KeySorted acc → KeySorted (m.foldl insert_sorted acc) := by
    intro m
    induction m with
    | nil => exact fun acc h => h
    | cons x xs ih => exact fun acc h => ih _ (insert_sorted_pairwise acc x h)
  exact hgen l [] List.Pairwise.nil

theorem insert_sorted_append (l : List Suid) (x : Suid)
    (h : ∀ y ∈ l, order_key y ≤ order_key x) : insert_sorted l x = l ++ [x] := by
  induction l with
  | nil => rfl
  | cons y ys ih =>
    unfold insert_sorted
    rw [if_pos (h y (List.mem_cons_self ..)), ih (fun z hz => h z (List.mem_cons_of_mem _ hz))]
    rfl

theorem foldl_insert_of_le (l : List Suid) : ∀ acc : List Suid, KeySorted l →
    (∀ y ∈ acc, ∀ z ∈ l, order_key y ≤ order_key z) → l.foldl insert_sorted acc = acc ++ l := by
  induction l with
  | nil => intro acc _ _; simp
  | cons x xs ih =>
    intro acc hl hacc
    rw [KeySorted, List.pairwise_cons] at hl
    have hx : ∀ y ∈ acc, order_key y ≤ order_key x :=
      fun y hy => hacc y hy x (List.mem_cons_self ..)
    rw [List.foldl_cons, insert_sorted_append acc x hx, ih (acc ++ [x]) hl.2 ?_]
    · simp
    · intro y hy z hz
      rcases List.mem_append.mp hy with hy' | hy'
      · exact hacc y hy' z (List.mem_cons_of_mem _ hz)
      · rw [List.mem_singleton.mp hy']
        exact hl.1 z hz

theorem order_eq_self (l : List Suid) (h : KeySorted l) : rhealpix_order l = l := by
  simpa using foldl_insert_of_le l [] h (by simp)

theorem sorted_key_unique (l1 : List Suid) : ∀ l2 : List Suid, l1 ~ l2 → KeySorted l1 →
    KeySorted l2 → (∀ a ∈ l1, ∀ b ∈ l1, order_key a = order_key b → a = b) → l1 = l2 := by
  induction l1 with
  | nil =>
    intro l2 hp _ _ _
    exact (hp.symm.eq_nil).symm
  | cons a as ih =>
    intro l2 hp h1 h2 hinj
    cases l2 with
    | nil => exact absurd hp.eq_nil (by simp)
    | cons b bs =>
      have hab : a = b := by
        have hain : a ∈ b :: bs := hp.mem_iff.mp (List.mem_cons_self ..)
        have hbin : b ∈ a :: as := hp.mem_iff.mpr (List.mem_cons_self ..)
        rcases List.mem_cons.mp hain with h | h
        · exact h
        · rcases List.mem_cons.mp hbin with h' | h'
          · exact h'.symm
          · have hba := (List.pairwise_cons.mp h2).1 a h
            have hab' := (List.pairwise_cons.mp h1).1 b h'
            exact hinj a (List.mem_cons_self ..) b (List.mem_cons_of_mem _ h')
              (Nat.le_antisymm hab' hba)
      subst hab
      have htl : as = bs := by
        refine ih bs hp.cons_inv (List.pairwise_cons.mp h1).2 (List.pairwise_cons.mp h2).2 ?_
        intro x hx y hy
        exact hinj x (List.mem_cons_of_mem _ hx) y (List.mem_cons_of_mem _ hy)
      rw [htl]

/-! ### The canonical sort key and its injectivity away from face N -/

theorem nfold_append_eq (i : Nat) (l1 l2 : List Nat) :
    nfold i (l1 ++ l2) = nfold (nfold i l1) l2 := by
  simp [nfold, List.foldl_append]

theorem nfold_lower (i : Nat) (ds : List Nat) : i * 10 ^ ds.length ≤ nfold i ds := by
  induction ds generalizing i with
  | nil => simp [nfold]
  | cons d ds ih =>
    calc i * 10 ^ (d :: ds).length = i * 10 * 10 ^ ds.length := by
          rw [List.length_cons]; ring
      _ ≤ (i * 10 + d) * 10 ^ ds.length := Nat.mul_le_mul_right _ (Nat.le_add_right _ _)
      _ ≤ nfold (i * 10 + d) ds := ih (i * 10 + d)
      _ = nfold i (d :: ds) := rfl

theorem nfold_upper (i : Nat) (ds : List Nat) (hd : ∀ d ∈ ds, d < 10) :
    nfold i ds < (i + 1) * 10 ^ ds.length := by
  induction ds generalizing i with
  | nil => simp [nfold]
  | cons d ds ih =>
    have hd0 : d < 10 := hd d (List.mem_cons_self ..)
    calc nfold i (d :: ds) = nfold (i * 10 + d) ds := rfl
      _ < (i * 10 + d + 1) * 10 ^ ds.length :=
          ih (i * 10 + d) (fun x hx => hd x (List.mem_cons_of_mem _ hx))
      _ ≤ (i + 1) * 10 * 10 ^ ds.length := Nat.mul_le_mul_right _ (by omega)
      _ = (i + 1) * 10 ^ (d :: ds).length := by rw [List.length_cons]; ring

theorem nfold_length_eq (i1 i2 : Nat) (ds1 ds2 : List Nat)
    (h1 : 1 ≤ i1) (h1' : i1 < 10) (h2 : 1 ≤ i2) (h2' : i2 < 10)
    (hd1 : ∀ d ∈ ds1, d < 10) (hd2 : ∀ d ∈ ds2, d < 10)
    (he : nfold i1 ds1 = nfold i2 ds2) : ds1.length = ds2.length := by
  have key : ∀ (j1 j2 : Nat) (es1 es2 : List Nat), j1 < 10 → 1 ≤ j2 →
      (∀ d ∈ es1, d < 10) → es1.length < es2.length → nfold j1 es1 < nfold j2 es2 := by
    intro j1 j2 es1 es2 hj1 hj2 hes1 hlen
    calc nfold j1 es1 < (j1 + 1) * 10 ^ es1.length := nfold_upper j1 es1 hes1
      _ ≤ 10 * 10 ^ es1.length := Nat.mul_le_mul_right _ (by omega)
      _ = 10 ^ (es1.length + 1) := by ring
      _ ≤ 10 ^ es2.length := Nat.pow_le_pow_right (by omega) hlen
      _ = 1 * 10 ^ es2.length := by ring
      _ ≤ j2 * 10 ^ es2.length := Nat.mul_le_mul_right _ hj2
      _ ≤ nfold j2 es2 := nfold_lower j2 es2
  rcases Nat.lt_trichotomy ds1.length ds2.length with h | h | h
  · exact absurd he (Nat.ne_of_lt (key i1 i2 ds1 ds2 h1' h2 hd1 h))
  · exact h
  · exact absurd he.symm (Nat.ne_of_lt (key i2 i1 ds2 ds1 h2' h1 hd2 h))

theorem nfold_digits_inj (a : Nat) (ds1 : List Nat) :
    ∀ (b : Nat) (ds2 : List Nat), (∀ d ∈ ds1, d < 10) → (∀ d ∈ ds2, d < 10) →
    ds1.length = ds2.length → nfold a ds1 = nfold b ds2 → a = b ∧ ds1 = ds2 := by
  induction ds1 using List.reverseRecOn with
  | nil =>
    intro b ds2 _ _ hlen he
    have h2 : ds2 = [] := List.eq_nil_of_length_eq_zero hlen.symm
    subst h2
    exact ⟨he, rfl⟩
  | append_singleton xs d ih =>
    intro b ds2 hd1 hd2 hlen he
    rcases ds2.eq_nil_or_concat with rfl | ⟨ys, e, rfl⟩
    · simp at hlen
    · rw [List.concat_eq_append] at *
      rw [nfold_append_eq, nfold_append_eq] at he
      have hsingle : ∀ z w : Nat, nfold z [w] = z * 10 + w := fun z w => rfl
      rw [hsingle, hsingle] at he
      have hd' : d < 10 := hd1 d (by simp)
      have he' : e < 10 := hd2 e (by simp)
      have hde : d = e ∧ nfold a xs = nfold b ys := by omega
      have hlen' : xs.length = ys.length := by simpa using hlen
      have hrec := ih b ys (fun x hx => hd1 x (by simp [hx]))
        (fun x hx => hd2 x (by simp [hx])) hlen' hde.2
      exact ⟨hrec.1, by rw [hrec.2, hde.1]⟩

theorem zero_cell_index_lt (f : ZeroCell) : zero_cell_index f < 10 := by
  cases f <;> simp [zero_cell_index]

theorem zero_cell_index_pos (f : ZeroCell) (h : f ≠ .N) : 1 ≤ zero_cell_index f := by
  cases f <;> simp_all [zero_cell_index]

theorem zero_cell_index_inj (f g : ZeroCell) (h : zero_cell_index f = zero_cell_index g) :
    f = g := by
  revert h; revert f g; decide

theorem digit_vals_lt (s : Suid) : ∀ d ∈ s.digits.map (fun d => d.val), d < 10 := by
  intro d hd
  obtain ⟨x, _, rfl⟩ := List.mem_map.mp hd
  have := x.isLt
  omega

theorem order_key_inj (a b : Suid) (ha : a.face ≠ .N) (hb : b.face ≠ .N)
    (h : order_key a = order_key b) : a = b := by
  have he : nfold (zero_cell_index a.face) (a.digits.map (fun d => d.val)) =
      nfold (zero_cell_index b.face) (b.digits.map (fun d => d.val)) := h
  have hlen := nfold_length_eq _ _ _ _ (zero_cell_index_pos a.face ha) (zero_cell_index_lt a.face)
    (zero_cell_index_pos b.face hb) (zero_cell_index_lt b.face)
    (digit_vals_lt a) (digit_vals_lt b) he
  have hinj := nfold_digits_inj _ _ _ _ (digit_vals_lt a) (digit_vals_lt b) hlen he
  have hface := zero_cell_index_inj _ _ hinj.1
  have hdig : a.digits = b.digits :=
    List.map_injective_iff.mpr (fun x y hxy => Fin.val_injective hxy) hinj.2
  obtain ⟨fa, da⟩ := a
  obtain ⟨fb, db⟩ := b
  simp_all

/-! ### Compression lemmas -/

theorem parent_key_child (c : Suid) (j : Fin 9) : parent_key (child c j) = some c := by
  simp [parent_key, child]

theorem parent_key_eq_some (s p : Suid) : parent_key s = some p ↔ ∃ j, s = child p j := by
  constructor
  · intro h
    unfold parent_key at h
    split at h
    · cases h
    · next hne =>
      obtain ⟨hf, hd⟩ := Suid.mk.injEq .. ▸ Option.some.inj h
      refine ⟨(s.digits.getLast hne), ?_⟩
      obtain ⟨fa, da⟩ := s
      simp only [child, ← hf, ← hd]
      simp [List.dropLast_append_getLast hne]
  · rintro ⟨j, rfl⟩
    exact parent_key_child p j

theorem child_list_nodup (c : Suid) : (child_list c).Nodup := by
  refine List.Nodup.map ?_ (List.nodup_finRange 9)
  intro x y hxy
  simpa [child] using hxy

theorem child_list_length (c : Suid) : (child_list c).length = 9 := by
  simp [child_list]

theorem mem_child_list (c : Suid) (s : Suid) : s ∈ child_list c ↔ ∃ j, s = child c j := by
  simp [child_list, eq_comm]

theorem map_parent_key_child_list (c : Suid) :
    (child_list c).map parent_key = List.replicate 9 (some c) := by
  rw [child_list, List.map_map]
  rw [show (parent_key ∘ child c) = (fun _ => some c) from funext fun j => parent_key_child c j]
  simp [List.map_const']

theorem dedup_replicate (x : Option Suid) (n : Nat) :
    (List.replicate (n + 1) x).dedup = [x] := by
  induction n with
  | zero => simp
  | succ n ih => rw [List.replicate_succ, List.dedup_cons_of_mem (by simp), ih]

theorem filter_child_list (c : Suid) :
    (child_list c).filter (fun s => decide (parent_key s = some c)) = child_list c :=
  List.filter_eq_self.mpr (fun s hs => by
    obtain ⟨j, rfl⟩ := (mem_child_list c s).mp hs
    simp [parent_key_child])

theorem compress_child_list (c : Suid) : rhealpix_compress (child_list c) = Except.ok [c] := by
  unfold rhealpix_compress
  rw [map_parent_key_child_list, show (9 : Nat) = 8 + 1 from rfl, dedup_replicate]
  rw [if_neg (by simp [filter_child_list, child_list_length])]
  simp [filter_child_list, child_list_length]

theorem ancestor_child (p : Suid) (j : Fin 9) : ancestor (child p j) p.digits.length = p := by
  simp [ancestor, child, List.take_left]

theorem perm_any_eq {α : Type} (l l' : List α) (hp : l ~ l') (f : α → Bool) :
    l.any f = l'.any f := by
  cases h : l.any f
  · cases h' : l'.any f
    · rfl
    · obtain ⟨x, hx, hfx⟩ := List.any_eq_true.mp h'
      rw [List.any_eq_false] at h
      exact absurd hfx (h x (hp.mem_iff.mpr hx))
  · obtain ⟨x, hx, hfx⟩ := List.any_eq_true.mp h
    exact (List.any_eq_true.mpr ⟨x, hp.mem_iff.mp hx, hfx⟩).symm

theorem mem_compress_ok (l m : List Suid) (h : rhealpix_compress l = Except.ok m) (x : Suid)
    (hx : x ∈ m) : x ∈ l ∨ ∃ s ∈ l, parent_key s = some x := by
  unfold rhealpix_compress at h
  split at h
  · cases h
  · obtain rfl := Except.ok.inj h
    obtain ⟨k, hk, hxk⟩ := List.mem_flatMap.mp hx
    by_cases hlen : (l.filter (fun s => decide (parent_key s = k))).length = 9
    · rw [if_pos hlen] at hxk
      match k, hxk with
      | some p, hxk =>
        obtain rfl : x = p := by simpa using hxk
        obtain ⟨ko, hko, hkeq⟩ := List.mem_map.mp (List.mem_dedup.mp hk)
        exact Or.inr ⟨ko, hko, hkeq⟩
    · rw [if_neg hlen] at hxk
      exact Or.inl (List.mem_filter.mp hxk).1

theorem compress_full_group_parent_mem (l m : List Suid) (p : Suid) (hnd : l.Nodup)
    (hall : ∀ j : Fin 9, child p j ∈ l) (h : rhealpix_compress l = Except.ok m) : p ∈ m := by
  have hvperm : l.filter (fun s => decide (parent_key s = some p)) ~ child_list p := by
    refine (List.perm_ext_iff_of_nodup (hnd.filter _) (child_list_nodup p)).mpr (fun s => ?_)
    rw [List.mem_filter, mem_child_list]
    constructor
    · rintro ⟨_, hpk⟩
      exact (parent_key_eq_some s p).mp (by simpa using hpk)
    · rintro ⟨j, rfl⟩
      exact ⟨hall j, by simp [parent_key_child]⟩
  have hvlen : (l.filter (fun s => decide (parent_key s = some p))).length = 9 := by
    rw [hvperm.length_eq, child_list_length]
  have hkmem : (some p) ∈ (l.map parent_key).dedup := by
    rw [List.mem_dedup]
    exact List.mem_map.mpr ⟨child p 0, hall 0, parent_key_child p 0⟩
  unfold rhealpix_compress at h
  split at h
  · cases h
  · obtain rfl := Except.ok.inj h
    refine List.mem_flatMap.mpr ⟨some p, hkmem, ?_⟩
    rw [if_pos hvlen]
    simp

theorem flatMap_groups_perm (ks : List (Option Suid)) :
    ∀ l : List Suid, ks.Nodup → (∀ s ∈ l, parent_key s ∈ ks) →
    (ks.flatMap fun k => l.filter (fun s => decide (parent_key s = k))) ~ l := by
  induction ks with
  | nil =>
    intro l _ hall
    cases l with
    | nil => rfl
    | cons s t => exact absurd (hall s (List.mem_cons_self ..)) (by simp)
  | cons k ks ih =>
    intro l hnd hall
    rw [List.flatMap_cons]
    have hknotin : k ∉ ks := (List.nodup_cons.mp hnd).1
    have hrw : (ks.flatMap fun k' => l.filter (fun s => decide (parent_key s = k'))) =
        ks.flatMap fun k' => (l.filter (fun s => !decide (parent_key s = k))).filter
          (fun s => decide (parent_key s = k')) := by
      refine List.flatMap_congr (fun k' hk' => ?_)
      rw [List.filter_filter]
      refine (List.filter_congr (fun s _ => ?_)).symm
      by_cases hs : parent_key s = k'
      · have hkk : k' ≠ k := fun hc => hknotin (hc ▸ hk')
        have : parent_key s ≠ k := by rw [hs]; exact hkk
        simp [hs, this, hkk]
      · simp [hs]
    rw [hrw]
    have hperm := ih (l.filter fun s => !decide (parent_key s = k))
      (List.nodup_cons.mp hnd).2
      (fun s hs => by
        have hm := List.mem_filter.mp hs
        have hnk : parent_key s ≠ k := by simpa using hm.2
        rcases List.mem_cons.mp (hall s hm.1) with hc | hc
        · exact absurd hc hnk
        · exact hc)
    calc l.filter (fun s => decide (parent_key s = k)) ++
          (ks.flatMap fun k' => (l.filter (fun s => !decide (parent_key s = k))).filter
            (fun s => decide (parent_key s = k')))
        ~ l.filter (fun s => decide (parent_key s = k)) ++
            l.filter (fun s => !decide (parent_key s = k)) := List.Perm.append_left _ hperm
      _ ~ l := List.filter_append_perm _ l

theorem compress_perm_self (l : List Suid)
    (hno : ∀ k ∈ (l.map parent_key).dedup,
      (l.filter (fun s => decide (parent_key s = k))).length ≠ 9) :
    ∃ m, rhealpix_compress l = Except.ok m ∧ m ~ l := by
  unfold rhealpix_compress
  rw [if_neg (by
    intro hany
    obtain ⟨k, hk, hfk⟩ := List.any_eq_true.mp hany
    have hsplit := (Bool.and_eq_true _ _).mp hfk
    exact hno k hk (by simpa using hsplit.2))]
  refine ⟨_, rfl, ?_⟩
  have hrw : ((l.map parent_key).dedup.flatMap fun k =>
      if (l.filter (fun s => decide (parent_key s = k))).length = 9 then
        match k with
        | some p => [p]
        | none => []
      else l.filter (fun s => decide (parent_key s = k))) =
      (l.map parent_key).dedup.flatMap fun k =>
        l.filter (fun s => decide (parent_key s = k)) := by
    refine List.flatMap_congr (fun k hk => ?_)
    simp only [if_neg (hno k hk)]
  rw [hrw]
  exact flatMap_groups_perm _ l (List.nodup_dedup _)
    (fun s hs => List.mem_dedup.mpr (List.mem_map.mpr ⟨s, hs, rfl⟩))

/-! ### Constructor pipeline facts -/

theorem parent_key_face (s p : Suid) (h : parent_key s = some p) : p.face = s.face := by
  unfold parent_key at h
  split at h
  · cases h
  · exact (congrArg Suid.face (Option.some.inj h)).symm

theorem compress_faces (l m : List Suid) (h : rhealpix_compress l = Except.ok m)
    (hface : ∀ s ∈ l, s.face ≠ ZeroCell.N) : ∀ x ∈ m, x.face ≠ ZeroCell.N := by
  intro x hx
  rcases mem_compress_ok l m h x hx with hm | ⟨s, hs, hpk⟩
  · exact hface x hm
  · rw [parent_key_face s x hpk]
    exact hface s hs

theorem cc_from_cells_nil (cf : Bool) : cc_from_cells [] cf = Except.ok [] := rfl

theorem cc_ok_canonical (cells : List Suid) (cf : Bool) (S : List Suid)
    (h : cc_from_cells cells cf = Except.ok S) :
    S.Nodup ∧ KeySorted S ∧
      (∀ x ∈ S, ∀ y ∈ S, ∀ i, i < y.digits.length → ancestor y i ≠ x) := by
  unfold cc_from_cells at h
  split at h
  · obtain rfl := Except.ok.inj h
    exact ⟨List.nodup_nil, List.Pairwise.nil, by simp⟩
  · split at h
    · cases h
    · rcases hc : (if cf then rhealpix_compress cells else Except.ok cells) with e | m
      · rw [hc] at h; cases h
      · rw [hc] at h
        obtain rfl := Except.ok.inj h
        have hnd2 : (absorb (deduplicate m)).Nodup :=
          (absorb_sublist _).nodup (List.nodup_dedup m)
        refine ⟨(order_perm _).symm.nodup hnd2, order_sorted _, ?_⟩
        intro x hx y hy i hi heq
        exact absorb_no_strict_prefix (deduplicate m) x y
          ((order_perm _).mem_iff.mp hx) ((order_perm _).mem_iff.mp hy) i hi heq

theorem cc_ok_mem_source (cells : List Suid) (cf : Bool) (S : List Suid)
    (h : cc_from_cells cells cf = Except.ok S) (x : Suid) (hx : x ∈ S) :
    x ∈ cells ∨ ∃ s ∈ cells, parent_key s = some x := by
  unfold cc_from_cells at h
  split at h
  · obtain rfl := Except.ok.inj h
    cases hx
  · split at h
    · cases h
    · rcases hc : (if cf then rhealpix_compress cells else Except.ok cells) with e | m
      · rw [hc] at h; cases h
      · rw [hc] at h
        obtain rfl := Except.ok.inj h
        have hxm : x ∈ m := List.mem_dedup.mp
          ((absorb_sublist _).subset ((order_perm _).mem_iff.mp hx))
        cases cf
        · have hocc : (Except.ok cells : Except String (List Suid)) = Except.ok m := by
            simpa using hc
          have : m = cells := (Except.ok.inj hocc).symm
          exact Or.inl (this ▸ hxm)
        · exact mem_compress_ok cells m (by simpa using hc) x hxm

theorem cc_ok_faces (cells : List Suid) (cf : Bool) (S : List Suid)
    (h : cc_from_cells cells cf = Except.ok S)
    (hface : ∀ s ∈ cells, s.face ≠ ZeroCell.N) : ∀ x ∈ S, x.face ≠ ZeroCell.N := by
  intro x hx
  rcases cc_ok_mem_source cells cf S h x hx with hm | ⟨s, hs, hpk⟩
  · exact hface x hm
  · rw [parent_key_face s x hpk]
    exact hface s hs

theorem no_nine_group (S : List Suid) (hnd : S.Nodup)
    (hnofull : has_full_sibling_group S = false) :
    ∀ k ∈ (S.map parent_key).dedup,
      (S.filter (fun s => decide (parent_key s = k))).length ≠ 9 := by
  intro k hk hlen
  match k with
  | some p =>
    have hsub : (S.filter (fun s => decide (parent_key s = some p))) ⊆ child_list p := by
      intro s hs
      have hm := List.mem_filter.mp hs
      rw [mem_child_list]
      exact (parent_key_eq_some s p).mp (by simpa using hm.2)
    have hspnd : (S.filter (fun s => decide (parent_key s = some p))).Nodup := hnd.filter _
    have hperm : (S.filter (fun s => decide (parent_key s = some p))) ~ child_list p :=
      (List.subperm_of_subset hspnd hsub).perm_of_length_le
        (le_of_eq (by rw [child_list_length, hlen]))
    have hallmem : ∀ j : Fin 9, child p j ∈ S := by
      intro j
      have hmem : child p j ∈ child_list p := (mem_child_list p _).mpr ⟨j, rfl⟩
      exact (List.mem_filter.mp (hperm.mem_iff.mpr hmem)).1
    have htrue : has_full_sibling_group S = true := by
      apply List.any_eq_true.mpr
      refine ⟨child p 0, hallmem 0, ?_⟩
      rw [parent_key_child]
      exact List.all_eq_true.mpr (fun c hc => by
        obtain ⟨j, rfl⟩ := (mem_child_list p c).mp hc
        simpa using hallmem j)
    rw [htrue] at hnofull
    cases hnofull
  | none =>
    have hdig : ∀ s ∈ S.filter (fun s => decide (parent_key s = none)), s.digits = [] := by
      intro s hs
      have hpk := (List.mem_filter.mp hs).2
      simp only [decide_eq_true_eq] at hpk
      unfold parent_key at hpk
      by_cases hd : s.digits = []
      · exact hd
      · rw [if_neg hd] at hpk
        cases hpk
    have hfnd : ((S.filter (fun s => decide (parent_key s = none))).map Suid.face).Nodup := by
      refine (hnd.filter _).map_on ?_
      intro x hx y hy hxy
      obtain ⟨fx, dx⟩ := x
      obtain ⟨fy, dy⟩ := y
      have h1 := hdig _ hx
      have h2 := hdig _ hy
      simp_all
    have hcard := hfnd.length_le_card
    rw [List.length_map, hlen] at hcard
    have hc6 : Fintype.card ZeroCell = 6 := by decide
    omega

theorem cc_from_cells_ne_nil_true (l : List Suid) (hne : l ≠ []) :
    cc_from_cells l true =
      match rhealpix_compress l with
      | Except.error e => Except.error e
      | Except.ok suids => Except.ok (rhealpix_order (absorb (deduplicate suids))) := by
  unfold cc_from_cells
  rw [if_neg (by simpa using hne), if_neg (by simp [List.length_eq_zero, hne]), if_pos rfl]

theorem cc_idempotent (S : List Suid)
    (hnd : S.Nodup) (hsort : KeySorted S)
    (hnp : ∀ x ∈ S, ∀ y ∈ S, ∀ i, i < y.digits.length → ancestor y i ≠ x)
    (hface : ∀ s ∈ S, s.face ≠ ZeroCell.N)
    (hnofull : has_full_sibling_group S = false) :
    cc_from_cells S true = Except.ok S := by
  rcases hS : S with _ | ⟨a, t⟩
  · rfl
  · rw [← hS]
    have hSne : S ≠ [] := by rw [hS]; simp
    obtain ⟨m, hcomp, hm⟩ := compress_perm_self S (no_nine_group S hnd hnofull)
    rw [cc_from_cells_ne_nil_true S hSne, hcomp]
    show Except.ok (rhealpix_order (absorb (deduplicate m))) = Except.ok S
    have hmnd : m.Nodup := hm.symm.nodup hnd
    have hded : deduplicate m = m := List.dedup_eq_self.mpr hmnd
    have habs : absorb m = m := by
      apply absorb_eq_self
      intro s hs hex
      obtain ⟨i, hi, hmem⟩ := hex
      exact hnp (ancestor s i) (hm.mem_iff.mp hmem) s (hm.mem_iff.mp hs)
        i (List.mem_range.mp hi) rfl
    rw [hded, habs]
    have horder : rhealpix_order m = S := by
      refine sorted_key_unique (rhealpix_order m) S ((order_perm m).trans hm)
        (order_sorted m) hsort ?_
      intro x hx y hy hk
      have hx' : x ∈ S := hm.mem_iff.mp ((order_perm m).mem_iff.mp hx)
      have hy' : y ∈ S := hm.mem_iff.mp ((order_perm m).mem_iff.mp hy)
      exact order_key_inj x y (hface x hx') (hface y hy') hk
    rw [horder]

theorem cc_construct_perm_congr (l l' : List Suid) (hp : l ~ l')
    (hnd : l.Nodup) (hface : ∀ s ∈ l, s.face ≠ ZeroCell.N) :
    cc_from_cells l true = cc_from_cells l' true := by
  rcases hl : l with _ | ⟨a, t⟩
  · have : l' = [] := (hl ▸ hp).symm.eq_nil
    rw [this]
  · rw [← hl]
    have hlne : l ≠ [] := by rw [hl]; simp
    have hlne' : l' ≠ [] := by
      intro hc
      rw [hc] at hp
      exact hlne hp.eq_nil
    have hnd' : l'.Nodup := hp.nodup hnd
    have hface' : ∀ s ∈ l', s.face ≠ ZeroCell.N := fun s hs => hface s (hp.mem_iff.mpr hs)
    -- the guard of the compression step agrees across the permutation
    have hfun : (fun k : Option Suid =>
        k.isNone && ((l.filter (fun s => decide (parent_key s = k))).length == 9)) =
        (fun k : Option Suid =>
        k.isNone && ((l'.filter (fun s => decide (parent_key s = k))).length == 9)) := by
      funext k
      rw [(hp.filter (fun s => decide (parent_key s = k))).length_eq]
    have hkeys : (l.map parent_key).dedup ~ (l'.map parent_key).dedup :=
      (hp.map parent_key).dedup
    have hguard : ((l.map parent_key).dedup.any (fun k =>
        k.isNone && ((l.filter (fun s => decide (parent_key s = k))).length == 9))) =
        ((l'.map parent_key).dedup.any (fun k =>
        k.isNone && ((l'.filter (fun s => decide (parent_key s = k))).length == 9))) := by
      rw [hfun]
      exact perm_any_eq _ _ hkeys _
    rw [cc_from_cells_ne_nil_true l hlne, cc_from_cells_ne_nil_true l' hlne']
    unfold rhealpix_compress
    by_cases hg : ((l.map parent_key).dedup.any (fun k =>
        k.isNone && ((l.filter (fun s => decide (parent_key s = k))).length == 9))) = true
    case pos => rw [if_pos hg, if_pos (hguard ▸ hg)]
    · rw [if_neg hg, if_neg (fun hc => hg (by rw [hguard]; exact hc))]
      -- both compressions succeed with permuted outputs
      have hmm : ((l.map parent_key).dedup.flatMap (fun k =>
          if (l.filter (fun s => decide (parent_key s = k))).length = 9 then
            match k with
            | some p => [p]
            | none => []
          else l.filter (fun s => decide (parent_key s = k)))) ~
          ((l'.map parent_key).dedup.flatMap (fun k =>
          if (l'.filter (fun s => decide (parent_key s = k))).length = 9 then
            match k with
            | some p => [p]
            | none => []
          else l'.filter (fun s => decide (parent_key s = k)))) := by
        have hpoint : ∀ k ∈ (l.map parent_key).dedup,
            (if (l.filter (fun s => decide (parent_key s = k))).length = 9 then
              match k with
              | some p => [p]
              | none => []
            else l.filter (fun s => decide (parent_key s = k))) ~
            (if (l'.filter (fun s => decide (parent_key s = k))).length = 9 then
              match k with
              | some p => [p]
              | none => []
            else l'.filter (fun s => decide (parent_key s = k))) := by
          intro k _
          rw [← (hp.filter (fun s => decide (parent_key s = k))).length_eq]
          split
          · exact List.Perm.refl _
          · exact hp.filter _
        exact (List.Perm.flatMap_left _ hpoint).trans (hkeys.flatMap_right _)
      -- push the permutation through dedup, absorb and the final sort
      have hded : deduplicate (((l.map parent_key).dedup.flatMap (fun k =>
          if (l.filter (fun s => decide (parent_key s = k))).length = 9 then
            match k with
            | some p => [p]
            | none => []
          else l.filter (fun s => decide (parent_key s = k))))) ~
          deduplicate (((l'.map parent_key).dedup.flatMap (fun k =>
          if (l'.filter (fun s => decide (parent_key s = k))).length = 9 then
            match k with
            | some p => [p]
            | none => []
          else l'.filter (fun s => decide (parent_key s = k))))) := hmm.dedup
      have habs := absorb_perm _ _ (List.nodup_dedup _) hded
      have hfacemem : ∀ x ∈ absorb (deduplicate (((l.map parent_key).dedup.flatMap (fun k =>
          if (l.filter (fun s => decide (parent_key s = k))).length = 9 then
            match k with
            | some p => [p]
            | none => []
          else l.filter (fun s => decide (parent_key s = k)))))), x.face ≠ ZeroCell.N := by
        intro x hx
        have hxm := List.mem_dedup.mp ((absorb_sublist _).subset hx)
        exact compress_faces l _ (by
          unfold rhealpix_compress
          rw [if_neg hg]) hface x hxm
      show Except.ok (rhealpix_order (absorb (deduplicate _))) =
        Except.ok (rhealpix_order (absorb (deduplicate _)))
      refine congrArg Except.ok ?_
      refine sorted_key_unique _ _ ?_ (order_sorted _) (order_sorted _) ?_
      · exact ((order_perm _).trans habs).trans (order_perm _).symm
      · intro x hx y hy hk
        have hx' := (order_perm _).mem_iff.mp hx
        have hy' := (order_perm _).mem_iff.mp hy
        exact order_key_inj x y (hfacemem x hx') (hfacemem y hy') hk

/-! ### Children enumeration -/

theorem order_key_child (c : Suid) (j : Fin 9) :
    order_key (child c j) = order_key c * 10 + j.val := by
  unfold order_key child
  simp [List.foldl_append]

theorem child_list_sorted (c : Suid) : KeySorted (child_list c) := by
  rw [child_list, KeySorted, List.pairwise_map]
  refine (List.pairwise_lt_finRange 9).imp ?_
  intro a b hab
  rw [order_key_child, order_key_child]
  have hv : a.val < b.val := hab
  omega

theorem absorb_child_list (c : Suid) : absorb (child_list c) = child_list c := by
  apply absorb_eq_self
  intro s hs hex
  obtain ⟨j, rfl⟩ := (mem_child_list c s).mp hs
  obtain ⟨i, hi, hmem⟩ := hex
  obtain ⟨j', heq⟩ := (mem_child_list c _).mp hmem
  have hir : i < (child c j).digits.length := List.mem_range.mp hi
  have h1 : (ancestor (child c j) i).digits.length = i := ancestor_digits_length _ i hir
  have h2 : (ancestor (child c j) i).digits.length = (child c j').digits.length := by rw [heq]
  rw [h1] at h2
  simp [child] at h2 hir
  omega

theorem cc_child_list_uncompressed (c : Suid) :
    cc_from_cells (child_list c) false = Except.ok (child_list c) := by
  unfold cc_from_cells
  rw [if_neg (by simp [child_list]), if_neg (by simp [child_list]),
    if_neg (by simp : ¬false = true)]
  show Except.ok (rhealpix_order (absorb (deduplicate (child_list c)))) = _
  rw [show deduplicate (child_list c) = child_list c from
    List.dedup_eq_self.mpr (child_list_nodup c)]
  rw [absorb_child_list, order_eq_self _ (child_list_sorted c)]

theorem cc_child_list_compressed (c : Suid) :
    cc_from_cells (child_list c) true = Except.ok [c] := by
  rw [cc_from_cells_ne_nil_true _ (by simp [child_list]), compress_child_list c]
  show Except.ok (rhealpix_order (absorb (deduplicate [c]))) = _
  rw [show deduplicate [c] = [c] from List.dedup_eq_self.mpr (by simp)]
  rw [absorb_eq_self [c] ?_, order_eq_self [c] ?_]
  · exact List.pairwise_singleton _ c
  · intro s hs hex
    obtain ⟨i, hi, hmem⟩ := hex
    obtain rfl := List.mem_singleton.mp hs
    exact ancestor_ne s i (List.mem_range.mp hi) (List.mem_singleton.mp hmem)

theorem children_tuples_eq (c : Suid) :
    (tuples_of (List.finRange 9) 1).map (fun t => (⟨c.face, c.digits ++ t⟩ : Suid)) =
      child_list c := by
  have h1 : tuples_of (List.finRange 9) 1 =
      [[0], [1], [2], [3], [4], [5], [6], [7], [8]] := by decide
  have h2 : List.finRange 9 = ([0, 1, 2, 3, 4, 5, 6, 7, 8] : List (Fin 9)) := by decide
  rw [h1, child_list, h2]
  rfl

theorem children_default_eq (c : Suid) : children c none = Except.ok (child_list c) := by
  unfold children
  rw [if_neg (by norm_num), if_neg (by norm_num)]
  rw [show ((1 : Int).toNat) = 1 from rfl, children_tuples_eq]
  exact cc_child_list_uncompressed c

/-! ### Difference lemmas -/

theorem prog_pair_self (c : Suid) : prog_pair c c = ([], [c]) := by
  unfold prog_pair
  rw [if_pos (overlaps_refl c), if_pos (Nat.le_refl _)]

theorem prog_pair_non_overlap (c1 c2 : Suid) (h : overlaps c1 c2 = false) :
    prog_pair c1 c2 = ([c1], []) := by
  unfold prog_pair
  rw [if_neg (by rw [h]; simp)]

theorem mem_prog_int_fst (ones twos : List Suid) (s : Suid) :
    s ∈ (prog_int ones twos).1 ↔ ∃ c1 ∈ ones, ∃ c2 ∈ twos, s ∈ (prog_pair c1 c2).1 := by
  unfold prog_int
  simp only [List.mem_flatten, List.mem_map, List.mem_flatMap]
  constructor
  · rintro ⟨L, ⟨pr, ⟨c1, hc1, ⟨c2, hc2, rfl⟩⟩, rfl⟩, hsL⟩
    exact ⟨c1, hc1, c2, hc2, hsL⟩
  · rintro ⟨c1, hc1, c2, hc2, hs⟩
    exact ⟨(prog_pair c1 c2).1, ⟨prog_pair c1 c2, ⟨c1, hc1, c2, hc2, rfl⟩, rfl⟩, hs⟩

theorem mem_prog_int_snd (ones twos : List Suid) (s : Suid) :
    s ∈ (prog_int ones twos).2 ↔ ∃ c1 ∈ ones, ∃ c2 ∈ twos, s ∈ (prog_pair c1 c2).2 := by
  unfold prog_int
  simp only [List.mem_flatten, List.mem_map, List.mem_flatMap]
  constructor
  · rintro ⟨L, ⟨pr, ⟨c1, hc1, ⟨c2, hc2, rfl⟩⟩, rfl⟩, hsL⟩
    exact ⟨c1, hc1, c2, hc2, hsL⟩
  · rintro ⟨c1, hc1, c2, hc2, hs⟩
    exact ⟨(prog_pair c1 c2).2, ⟨prog_pair c1 c2, ⟨c1, hc1, c2, hc2, rfl⟩, rfl⟩, hs⟩

theorem eq_of_prefix_parts (x y : Suid) (hf : x.face = y.face) (t : List (Fin 9))
    (ht : y.digits = x.digits ++ t)
    (hnp : ∀ i, i < y.digits.length → ancestor y i ≠ x) : x = y := by
  rcases t with _ | ⟨a, t⟩
  · obtain ⟨fx, dx⟩ := x
    obtain ⟨fy, dy⟩ := y
    simp_all
  · exfalso
    have hlen : x.digits.length < y.digits.length := by rw [ht]; simp
    refine hnp x.digits.length hlen ?_
    unfold ancestor
    rw [ht, List.take_left]
    obtain ⟨fx, dx⟩ := x
    simp_all

theorem canonical_overlap_eq (S : List Suid)
    (hnp : ∀ x ∈ S, ∀ y ∈ S, ∀ i, i < y.digits.length → ancestor y i ≠ x)
    (x y : Suid) (hx : x ∈ S) (hy : y ∈ S) (ho : overlaps x y = true) : x = y := by
  obtain ⟨hf, hpre | hpre⟩ := (overlaps_iff x y).mp ho
  · obtain ⟨t, ht⟩ := hpre
    exact eq_of_prefix_parts x y hf t ht (fun i hi => hnp x hx y hy i hi)
  · obtain ⟨t, ht⟩ := hpre
    exact (eq_of_prefix_parts y x hf.symm t ht (fun i hi => hnp y hy x hx i hi)).symm

theorem cc_sub_self (S : List Suid)
    (hnp : ∀ x ∈ S, ∀ y ∈ S, ∀ i, i < y.digits.length → ancestor y i ≠ x) :
    cc_sub S S = Except.ok [] := by
  show cc_from_cells ((prog_int S S).1.dedup.filter
    (fun s => decide (s ∉ (prog_int S S).2))) true = Except.ok []
  have hover : (prog_int S S).1.dedup.filter
      (fun s => decide (s ∉ (prog_int S S).2)) = [] := by
    rw [List.filter_eq_nil_iff]
    intro s hs
    have hsfst := List.mem_dedup.mp hs
    have hsS : s ∈ S := by
      obtain ⟨c1, hc1, c2, hc2, hmem⟩ := (mem_prog_int_fst S S s).mp hsfst
      by_cases ho : overlaps c1 c2 = true
      · rw [canonical_overlap_eq S hnp c1 c2 hc1 hc2 ho, prog_pair_self] at hmem
        cases hmem
      · rw [prog_pair_non_overlap c1 c2 (Bool.eq_false_iff.mpr ho)] at hmem
        rw [List.mem_singleton.mp hmem]
        exact hc1
    have hrem : s ∈ (prog_int S S).2 :=
      (mem_prog_int_snd S S s).mpr ⟨s, hsS, s, hsS, by rw [prog_pair_self]; simp⟩
    simp [hrem]
  rw [hover]
  rfl

/-! ### Compression drops a full child group in favour of the parent -/

theorem cc_full_group_child_not_mem (l : List Suid) (p : Suid) (out : List Suid)
    (hnd : l.Nodup) (hall : ∀ j : Fin 9, child p j ∈ l)
    (h : cc_from_cells l true = Except.ok out) : ∀ j : Fin 9, child p j ∉ out := by
  intro j hj
  have hlne : l ≠ [] := by
    intro hc
    rw [hc] at hall
    exact absurd (hall 0) (List.not_mem_nil _)
  rw [cc_from_cells_ne_nil_true l hlne] at h
  rcases hc : rhealpix_compress l with e | m
  · rw [hc] at h
    cases h
  · rw [hc] at h
    obtain rfl := Except.ok.inj h
    have hpm : p ∈ m := compress_full_group_parent_mem l m p hnd hall hc
    have hmem : child p j ∈ absorb (deduplicate m) := (order_perm _).mem_iff.mp hj
    have hchr := (mem_absorb _ _).mp hmem
    refine hchr.2 p.digits.length ?_ (by rw [ancestor_child]; exact List.mem_dedup.mpr hpm)
    rw [List.mem_range]
    simp [child]

/-! ### Rendering: injectivity of the canonical string form -/

theorem face_char_inj (f g : ZeroCell) (h : face_char f = face_char g) : f = g := by
  revert h
  revert f g
  decide

theorem digit_char_inj (d e : Fin 9) (h : digit_char d = digit_char e) : d = e := by
  revert h
  revert d e
  decide

theorem face_char_ne_space (f : ZeroCell) : face_char f ≠ ' ' := by
  revert f
  decide

theorem digit_char_ne_space (d : Fin 9) : digit_char d ≠ ' ' := by
  revert d
  decide

theorem suid_chars_ne_nil (s : Suid) : suid_chars s ≠ [] := by
  simp [suid_chars]

theorem space_not_mem_suid_chars (s : Suid) : ' ' ∉ suid_chars s := by
  intro h
  rcases List.mem_cons.mp h with h | h
  · exact face_char_ne_space s.face h.symm
  · obtain ⟨d, _, hd⟩ := List.mem_map.mp h
    exact digit_char_ne_space d hd

theorem suid_chars_inj (a b : Suid) (h : suid_chars a = suid_chars b) : a = b := by
  unfold suid_chars at h
  injection h with h1 h2
  have hface := face_char_inj _ _ h1
  have hdig : a.digits = b.digits :=
    List.map_injective_iff.mpr (fun x y hxy => digit_char_inj x y hxy) h2
  obtain ⟨fa, da⟩ := a
  obtain ⟨fb, db⟩ := b
  simp_all

theorem append_space_inj (x : List Char) : ∀ (y u v : List Char), ' ' ∉ x → ' ' ∉ y →
    x ++ ' ' :: u = y ++ ' ' :: v → x = y ∧ u = v := by
  induction x with
  | nil =>
    intro y u v _ hy h
    cases y with
    | nil => simpa using h
    | cons c ys =>
      exfalso
      rw [List.nil_append, List.cons_append, List.cons.injEq] at h
      exact hy (h.1 ▸ List.mem_cons_self ..)
  | cons c xs ih =>
    intro y u v hx hy h
    cases y with
    | nil =>
      exfalso
      rw [List.nil_append, List.cons_append, List.cons.injEq] at h
      exact hx (h.1 ▸ List.mem_cons_self ..)
    | cons d ys =>
      rw [List.cons_append, List.cons_append, List.cons.injEq] at h
      obtain ⟨rfl, h2⟩ := h
      obtain ⟨h3, h4⟩ := ih ys u v (fun hm => hx (List.mem_cons_of_mem _ hm))
        (fun hm => hy (List.mem_cons_of_mem _ hm)) h2
      exact ⟨by rw [h3], h4⟩

theorem join_chars_inj (xs : List (List Char)) :
    ∀ ys : List (List Char),
    (∀ t ∈ xs, t ≠ [] ∧ ' ' ∉ t) → (∀ t ∈ ys, t ≠ [] ∧ ' ' ∉ t) →
    join_chars xs = join_chars ys → xs = ys := by
  induction xs with
  | nil =>
    intro ys _ hys h
    cases ys with
    | nil => rfl
    | cons y ys' =>
      exfalso
      cases ys' with
      | nil => exact (hys y (List.mem_cons_self ..)).1 (by simpa [join_chars] using h.symm)
      | cons z zs =>
        rw [show join_chars (y :: z :: zs) = y ++ ' ' :: join_chars (z :: zs) from rfl] at h
        rcases List.append_eq_nil.mp h.symm with ⟨_, hc⟩
        cases hc
  | cons x xs' ih =>
    intro ys hxs hys h
    cases ys with
    | nil =>
      exfalso
      cases xs' with
      | nil => exact (hxs x (List.mem_cons_self ..)).1 (by simpa [join_chars] using h)
      | cons z zs =>
        rw [show join_chars (x :: z :: zs) = x ++ ' ' :: join_chars (z :: zs) from rfl] at h
        rcases List.append_eq_nil.mp h with ⟨_, hc⟩
        cases hc
    | cons y ys' =>
      cases xs' with
      | nil =>
        cases ys' with
        | nil =>
          rw [show join_chars [x] = x from rfl, show join_chars [y] = y from rfl] at h
          rw [h]
        | cons z zs =>
          exfalso
          rw [show join_chars [x] = x from rfl,
            show join_chars (y :: z :: zs) = y ++ ' ' :: join_chars (z :: zs) from rfl] at h
          exact (hxs x (List.mem_cons_self ..)).2
            (h ▸ List.mem_append.mpr (Or.inr (List.mem_cons_self ..)))
      | cons w ws =>
        cases ys' with
        | nil =>
          exfalso
          rw [show join_chars [y] = y from rfl,
            show join_chars (x :: w :: ws) = x ++ ' ' :: join_chars (w :: ws) from rfl] at h
          exact (hys y (List.mem_cons_self ..)).2
            (h ▸ List.mem_append.mpr (Or.inr (List.mem_cons_self ..)))
        | cons z zs =>
          rw [show join_chars (x :: w :: ws) = x ++ ' ' :: join_chars (w :: ws) from rfl,
            show join_chars (y :: z :: zs) = y ++ ' ' :: join_chars (z :: zs) from rfl] at h
          obtain ⟨h1, h2⟩ := append_space_inj x y _ _
            (hxs x (List.mem_cons_self ..)).2 (hys y (List.mem_cons_self ..)).2 h
          have := ih (z :: zs) (fun t ht => hxs t (List.mem_cons_of_mem _ ht))
            (fun t ht => hys t (List.mem_cons_of_mem _ ht)) h2
          rw [h1, this]

theorem join_space_data (L : List String) :
    (join_space L).data = join_chars (L.map String.data) := by
  induction L with
  | nil => rfl
  | cons s rest ih =>
    cases rest with
    | nil => rfl
    | cons t ts =>
      show (s ++ " " ++ join_space (t :: ts)).data = s.data ++ ' ' :: join_chars _
      rw [String.data_append, String.data_append, ih]
      simp

theorem cc_repr_inj (A B : List Suid) (h : cc_repr A = cc_repr B) : A = B := by
  have hface_ne_E : ∀ f : ZeroCell, face_char f ≠ 'E' := by decide
  have hhead : ∀ (b : Suid) (bs : List Suid),
      ∃ r, (cc_repr (b :: bs)).data = face_char b.face :: r := by
    intro b bs
    have hd : (cc_repr (b :: bs)).data = join_chars (((b :: bs).map suid_str).map String.data) :=
      join_space_data _
    cases bs with
    | nil => exact ⟨b.digits.map digit_char, by rw [hd]; rfl⟩
    | cons t ts =>
      refine ⟨b.digits.map digit_char ++
        ' ' :: join_chars (((t :: ts).map suid_str).map String.data), ?_⟩
      rw [hd]
      rfl
  cases A with
  | nil =>
    cases B with
    | nil => rfl
    | cons b bs =>
      exfalso
      obtain ⟨r, hr⟩ := hhead b bs
      have hdata := congrArg String.data h
      rw [hr] at hdata
      have : 'E' = face_char b.face := by
        have : ('E' : Char) :: "mpty CellCollection".data = face_char b.face :: r := hdata
        exact (List.cons.injEq .. ▸ this).1
      exact hface_ne_E b.face this.symm
  | cons a as =>
    cases B with
    | nil =>
      exfalso
      obtain ⟨r, hr⟩ := hhead a as
      have hdata := congrArg String.data h
      rw [hr] at hdata
      have : face_char a.face = 'E' := by
        have : face_char a.face :: r = ('E' : Char) :: "mpty CellCollection".data := hdata
        exact (List.cons.injEq .. ▸ this).1
      exact hface_ne_E a.face this
    | cons b bs =>
      have hdata : (join_space ((a :: as).map suid_str)).data =
          (join_space ((b :: bs).map suid_str)).data := congrArg String.data h
      rw [join_space_data, join_space_data] at hdata
      have htok : ((a :: as).map suid_str).map String.data =
          ((b :: bs).map suid_str).map String.data := by
        refine join_chars_inj _ _ ?_ ?_ hdata
        · intro t ht
          obtain ⟨u, hu, rfl⟩ := List.mem_map.mp ht
          obtain ⟨s, _, rfl⟩ := List.mem_map.mp hu
          exact ⟨suid_chars_ne_nil s, space_not_mem_suid_chars s⟩
        · intro t ht
          obtain ⟨u, hu, rfl⟩ := List.mem_map.mp ht
          obtain ⟨s, _, rfl⟩ := List.mem_map.mp hu
          exact ⟨suid_chars_ne_nil s, space_not_mem_suid_chars s⟩
      rw [List.map_map, List.map_map] at htok
      exact List.map_injective_iff.mpr
        (fun x y hxy => suid_chars_inj x y hxy) htok

/-! ### Aggregate neighbours: the resolution guard -/

theorem neighbours_resolution_below_max (S : List Suid) (r : Nat) (h0 : 0 < r)
    (hr : r < max_resolution S) :
    neighbours_resolution S (some r) =
      Except.error "Resolution must be at or greater than the CellCollection's max resolution in order to provide a sensible set of neighbouring cells" := by
  show (if r = 0 then Except.ok (max_resolution S)
    else if r < max_resolution S then
      Except.error "Resolution must be at or greater than the CellCollection's max resolution in order to provide a sensible set of neighbouring cells"
    else Except.ok r) = _
  rw [if_neg (by omega), if_pos hr]

theorem cc_neighbours_below_max (S : List Suid) (r : Nat) (h0 : 0 < r)
    (hr : r < max_resolution S) :
    cc_neighbours S (some r) =
      Except.error "Resolution must be at or greater than the CellCollection's max resolution in order to provide a sensible set of neighbouring cells" := by
  unfold cc_neighbours
  rw [neighbours_resolution_below_max S r h0 hr]
  rfl

theorem prog_int_no_overlap_single (ones : List Suid) (t : Suid)
    (h : ∀ c1 ∈ ones, overlaps c1 t = false) : prog_int ones [t] = (ones, []) := by
  induction ones with
  | nil => rfl
  | cons c cs ih =>
    have hc := prog_pair_non_overlap c t (h c (List.mem_cons_self ..))
    have ihh := ih (fun c1 hc1 => h c1 (List.mem_cons_of_mem _ hc1))
    have e1 : prog_int (c :: cs) [t] =
        ((prog_pair c t).1 ++ (prog_int cs [t]).1,
          (prog_pair c t).2 ++ (prog_int cs [t]).2) := rfl
    rw [e1, ihh, hc]
    rfl

theorem compress_error_value (l : List Suid) (e : String)
    (h : rhealpix_compress l = Except.error e) :
    e = "compression produced an invalid empty suid" := by
  unfold rhealpix_compress at h
  split at h
  · exact (Except.error.inj h).symm
  · cases h

/-! ## Claim theorems -/

/-- Claim C1: for every CellCollection S (any successful constructor output),
the difference S - S is the empty sentinel: an empty suid list, of length 0,
rendering as "Empty CellCollection". -/
theorem claim_C1 (cells : List Suid) (cf : Bool) (S : List Suid)
    (h : cc_from_cells cells cf = Except.ok S) :
    cc_sub S S = Except.ok [] ∧ ([] : List Suid).length = 0 ∧
      cc_repr [] = "Empty CellCollection" :=
  ⟨cc_sub_self S (cc_ok_canonical cells cf S h).2.2, rfl, rfl⟩

/-- Witness for claim C1 at the collection built from the single suid P1, as
in the spec's fixture `CellCollection("P1") - CellCollection("P1")`. -/
theorem claim_C1_witness :
    cc_from_cells [(⟨ZeroCell.P, [1]⟩ : Suid)] true = Except.ok [⟨ZeroCell.P, [1]⟩] ∧
      (cc_sub [(⟨ZeroCell.P, [1]⟩ : Suid)] [⟨ZeroCell.P, [1]⟩] = Except.ok [] ∧
        ([] : List Suid).length = 0 ∧ cc_repr [] = "Empty CellCollection") :=
  ⟨rfl, claim_C1 [⟨ZeroCell.P, [1]⟩] true [⟨ZeroCell.P, [1]⟩] rfl⟩

/-- Claim C2: every cell's default `children()` enumerates exactly its nine
immediate-child suids, and wrapping those nine in a compressing CellCollection
canonicalizes back to the single parent; concretely `Cell("P").children()`
yields P0..P8 and that collection renders as "P". -/
theorem claim_C2 (c : Suid) :
    children c none = Except.ok (child_list c) ∧
      cc_from_cells (child_list c) true = Except.ok [c] ∧
      child_list (⟨ZeroCell.P, []⟩ : Suid) =
        [⟨ZeroCell.P, [0]⟩, ⟨ZeroCell.P, [1]⟩, ⟨ZeroCell.P, [2]⟩, ⟨ZeroCell.P, [3]⟩,
         ⟨ZeroCell.P, [4]⟩, ⟨ZeroCell.P, [5]⟩, ⟨ZeroCell.P, [6]⟩, ⟨ZeroCell.P, [7]⟩,
         ⟨ZeroCell.P, [8]⟩] ∧
      cc_repr [(⟨ZeroCell.P, []⟩ : Suid)] = "P" :=
  ⟨children_default_eq c, cc_child_list_compressed c, rfl, rfl⟩

/-- Counterexample to claim C3: the input of all 81 resolution-2 descendants of
the face cell P constructs (with compression enabled) the collection P0..P8, in
which all nine children of the parent P are present — compression is a single
pass and does not re-examine its own output. -/
theorem claim_C3_counterexample :
    cc_from_cells descendants81 true = Except.ok children_of_P ∧
      (∀ j : Fin 9, child ⟨ZeroCell.P, []⟩ j ∈ children_of_P) :=
  ⟨rfl, by decide⟩

/-- Amended claim C3: single-pass compression removes every full sibling group
present in the input itself: if a duplicate-free input contains all nine
children of a parent p, none of those children survives into the constructed
collection (the parent replaces them, and absorption keeps the rest out).  A
full sibling group can still appear in the output when compression itself
creates it one level up. -/
theorem claim_C3_amended (l : List Suid) (p : Suid) (out : List Suid) (j : Fin 9)
    (hnd : l.Nodup) (hall : ∀ j' : Fin 9, child p j' ∈ l)
    (h : cc_from_cells l true = Except.ok out) : child p j ∉ out :=
  cc_full_group_child_not_mem l p out hnd hall h j

/-- Witness for the amended claim C3 at the nine children of P. -/
theorem claim_C3_witness :
    (child_list (⟨ZeroCell.P, []⟩ : Suid)).Nodup ∧
      (∀ j' : Fin 9, child ⟨ZeroCell.P, []⟩ j' ∈ child_list ⟨ZeroCell.P, []⟩) ∧
      cc_from_cells (child_list ⟨ZeroCell.P, []⟩) true = Except.ok [⟨ZeroCell.P, []⟩] ∧
      child ⟨ZeroCell.P, []⟩ 0 ∉ [(⟨ZeroCell.P, []⟩ : Suid)] :=
  ⟨by decide, by decide, rfl,
    claim_C3_amended (child_list ⟨ZeroCell.P, []⟩) ⟨ZeroCell.P, []⟩ [⟨ZeroCell.P, []⟩] 0
      (by decide) (by decide) rfl⟩

/-- Claim C4: when a neighbour step keeps the leading face label (no face
crossing), the opposite step from the neighbour returns to the original
cell. -/
theorem claim_C4 (a : Suid) (d : Direction) (h : (neighbour a d).face = a.face) :
    neighbour (neighbour a d) (opposite d) = a :=
  neighbour_symm a d h

/-- Witness for claim C4 at the cell P1 stepping right (to P2) and back. -/
theorem claim_C4_witness :
    (neighbour ⟨ZeroCell.P, [1]⟩ Direction.right).face = ZeroCell.P ∧
      neighbour (neighbour ⟨ZeroCell.P, [1]⟩ Direction.right) (opposite Direction.right) =
        ⟨ZeroCell.P, [1]⟩ :=
  ⟨by decide, claim_C4 ⟨ZeroCell.P, [1]⟩ Direction.right (by decide)⟩

/-- Claim C5: `overlaps` returns true exactly when one suid is a prefix of the
other (same face, and one digit list extends the other), and it is
symmetric. -/
theorem claim_C5 (a b : Suid) :
    (overlaps a b = true ↔ a.face = b.face ∧
      ((∃ t, b.digits = a.digits ++ t) ∨ (∃ t, a.digits = b.digits ++ t))) ∧
      overlaps a b = overlaps b a :=
  ⟨overlaps_iff a b, overlaps_comm a b⟩

/-- Counterexample to claim C6: the collection built from the 81 resolution-2
descendants of P has suids P0..P8; adding the empty collection re-runs the
compressing constructor, which collapses them to P, so `S + empty` differs from
S. -/
theorem claim_C6_counterexample :
    cc_from_cells descendants81 true = Except.ok children_of_P ∧
      cc_add children_of_P [] true = Except.ok [⟨ZeroCell.P, []⟩] ∧
      children_of_P ≠ [⟨ZeroCell.P, []⟩] :=
  ⟨rfl, rfl, by decide⟩

/-- Amended claim C6: for constructor-produced collections S and T none of
whose members lie on the first zero-cell N (whose index-0 face makes canonical
sort keys collide), union is commutative, and `S + empty == S` holds provided S
additionally contains no complete sibling group (otherwise the union's
re-canonicalization compresses S further, as the counterexample shows). -/
theorem claim_C6_amended (cells : List Suid) (cf : Bool) (S : List Suid)
    (cells2 : List Suid) (cf2 : Bool) (T : List Suid)
    (hS : cc_from_cells cells cf = Except.ok S) (hT : cc_from_cells cells2 cf2 = Except.ok T)
    (hfS : ∀ s ∈ S, s.face ≠ ZeroCell.N) (hfT : ∀ s ∈ T, s.face ≠ ZeroCell.N) :
    cc_add S T true = cc_add T S true ∧
      (has_full_sibling_group S = false → cc_add S [] true = Except.ok S) := by
  obtain ⟨hndS, hsortS, hnpS⟩ := cc_ok_canonical cells cf S hS
  constructor
  · unfold cc_add
    apply cc_construct_perm_congr
    · refine (List.perm_ext_iff_of_nodup (List.nodup_dedup _) (List.nodup_dedup _)).mpr ?_
      intro a
      rw [List.mem_dedup, List.mem_dedup, List.mem_append, List.mem_append]
      exact Or.comm
    · exact List.nodup_dedup _
    · intro s hs
      rcases List.mem_append.mp (List.mem_dedup.mp hs) with h | h
      · exact hfS s h
      · exact hfT s h
  · intro hnofull
    unfold cc_add
    rw [List.append_nil, List.dedup_eq_self.mpr hndS]
    exact cc_idempotent S hndS hsortS hnpS hfS hnofull

/-- Witness for the amended claim C6 with S the collection of the single suid
P1 and T the collection of the single face cell O. -/
theorem claim_C6_witness :
    cc_from_cells [(⟨ZeroCell.P, [1]⟩ : Suid)] true = Except.ok [⟨ZeroCell.P, [1]⟩] ∧
      cc_from_cells [(⟨ZeroCell.O, []⟩ : Suid)] true = Except.ok [⟨ZeroCell.O, []⟩] ∧
      (cc_add [⟨ZeroCell.P, [1]⟩] [⟨ZeroCell.O, []⟩] true =
          cc_add [⟨ZeroCell.O, []⟩] [⟨ZeroCell.P, [1]⟩] true ∧
        (has_full_sibling_group [(⟨ZeroCell.P, [1]⟩ : Suid)] = false →
          cc_add [⟨ZeroCell.P, [1]⟩] [] true = Except.ok [⟨ZeroCell.P, [1]⟩])) :=
  ⟨rfl, rfl,
    claim_C6_amended [⟨ZeroCell.P, [1]⟩] true [⟨ZeroCell.P, [1]⟩]
      [⟨ZeroCell.O, []⟩] true [⟨ZeroCell.O, []⟩] rfl rfl (by decide) (by decide)⟩

/-- Counterexample to claim C7: on the collection of the single suid P4 (whose
maximum resolution 1 is positive), `neighbours(0)` does not raise: 0 is falsy
in Python, so the resolution falls back to the default and the call returns the
eight surrounding cells. -/
theorem claim_C7_counterexample :
    cc_neighbours [(⟨ZeroCell.P, [4]⟩ : Suid)] (some 0) =
      Except.ok [⟨ZeroCell.P, [0]⟩, ⟨ZeroCell.P, [1]⟩, ⟨ZeroCell.P, [2]⟩, ⟨ZeroCell.P, [3]⟩,
        ⟨ZeroCell.P, [5]⟩, ⟨ZeroCell.P, [6]⟩, ⟨ZeroCell.P, [7]⟩, ⟨ZeroCell.P, [8]⟩] := by
  show cc_from_cells ((prog_int [⟨ZeroCell.P, [0]⟩, ⟨ZeroCell.P, [1]⟩, ⟨ZeroCell.P, [2]⟩,
      ⟨ZeroCell.P, [3]⟩, ⟨ZeroCell.P, [5]⟩, ⟨ZeroCell.P, [6]⟩, ⟨ZeroCell.P, [7]⟩,
      ⟨ZeroCell.P, [8]⟩] [⟨ZeroCell.P, [4]⟩]).1.dedup.filter
      (fun s => decide (s ∉ (prog_int [⟨ZeroCell.P, [0]⟩, ⟨ZeroCell.P, [1]⟩,
        ⟨ZeroCell.P, [2]⟩, ⟨ZeroCell.P, [3]⟩, ⟨ZeroCell.P, [5]⟩, ⟨ZeroCell.P, [6]⟩,
        ⟨ZeroCell.P, [7]⟩, ⟨ZeroCell.P, [8]⟩] [⟨ZeroCell.P, [4]⟩]).2))) true = _
  rw [prog_int_no_overlap_single _ _ (by decide)]
  rfl

/-- Amended claim C7: the value error is raised exactly for a truthy requested
resolution strictly below the collection's maximum; resolution 0 is falsy in
the source and silently falls back to the default. -/
theorem claim_C7_amended (S : List Suid) (r : Nat) (h0 : 0 < r)
    (hr : r < max_resolution S) :
    cc_neighbours S (some r) =
      Except.error "Resolution must be at or greater than the CellCollection's max resolution in order to provide a sensible set of neighbouring cells" :=
  cc_neighbours_below_max S r h0 hr

/-- Witness for the amended claim C7 on the single-cell collection P44 with
requested resolution 1 below its maximum resolution 2. -/
theorem claim_C7_witness :
    0 < 1 ∧ 1 < max_resolution [(⟨ZeroCell.P, [4, 4]⟩ : Suid)] ∧
      cc_neighbours [(⟨ZeroCell.P, [4, 4]⟩ : Suid)] (some 1) =
        Except.error "Resolution must be at or greater than the CellCollection's max resolution in order to provide a sensible set of neighbouring cells" :=
  ⟨by decide, by decide, claim_C7_amended [⟨ZeroCell.P, [4, 4]⟩] 1 (by decide) (by decide)⟩

/-- Counterexample to claim C8: constructing a CellCollection from an
explicitly supplied empty list does not fail — the falsy `empty()` check runs
before `standardise_input`, so the constructor returns the designated empty
sentinel and never raises. -/
theorem claim_C8_counterexample :
    cc_from_cells ([] : List Suid) true = Except.ok [] ∧
      cc_repr [] = "Empty CellCollection" ∧
      ∀ e, cc_from_cells ([] : List Suid) true ≠ Except.error e :=
  ⟨rfl, rfl, fun _ h => Except.noConfusion h⟩

/-- Amended claim C8: the constructor's "Cell Collections cannot be empty."
value error is unreachable: an empty cells list short-circuits into the empty
sentinel before the length check runs, and no other input reaches it. -/
theorem claim_C8_amended (cells : List Suid) (cf : Bool) :
    cc_from_cells cells cf ≠ Except.error "Cell Collections cannot be empty." := by
  unfold cc_from_cells
  split
  · intro h
    cases h
  · next h1 =>
    split
    · next h2 =>
      exact absurd (by simp [List.length_eq_zero.mp h2]) h1
    · split
      · next e heq =>
        intro h
        have he := Except.error.inj h
        cases cf
        · simp at heq
        · rw [compress_error_value cells e (by simpa using heq)] at he
          exact absurd he (by decide)
      · intro h
        cases h

/-- Counterexample to claim C9: the neighbour set of the cell N0 contains N0
itself — the diagonal composite left-then-up crosses onto face R with a
quarter-turn rotation and returns to N0. -/
theorem claim_C9_counterexample :
    cell_neighbours ⟨ZeroCell.N, [0]⟩ = Except.ok
      [⟨ZeroCell.N, [0]⟩, ⟨ZeroCell.N, [1]⟩, ⟨ZeroCell.N, [3]⟩, ⟨ZeroCell.N, [4]⟩,
       ⟨ZeroCell.Q, [1]⟩, ⟨ZeroCell.Q, [2]⟩, ⟨ZeroCell.R, [0]⟩, ⟨ZeroCell.R, [3]⟩] ∧
      (⟨ZeroCell.N, [0]⟩ : Suid) ∈
        [(⟨ZeroCell.N, [0]⟩ : Suid), ⟨ZeroCell.N, [1]⟩, ⟨ZeroCell.N, [3]⟩, ⟨ZeroCell.N, [4]⟩,
         ⟨ZeroCell.Q, [1]⟩, ⟨ZeroCell.Q, [2]⟩, ⟨ZeroCell.R, [0]⟩, ⟨ZeroCell.R, [3]⟩] :=
  ⟨rfl, by decide⟩

/-- Amended claim C9: a cardinal neighbour step never returns the cell itself
(the suid differs in at least one position); however the full `neighbours()`
collection can contain the cell, via the diagonal composites, so only the
cardinal part of the claim survives. -/
theorem claim_C9_amended (a : Suid) (d : Direction) : neighbour a d ≠ a :=
  neighbour_ne a d

/-- Claim C10: the difference operator is deterministic with respect to the
library's own equality (canonical string rendering): operands with equal
renderings yield equal results. -/
theorem claim_C10 (S S' T T' : List Suid) (hS : cc_repr S = cc_repr S')
    (hT : cc_repr T = cc_repr T') : cc_sub S T = cc_sub S' T' := by
  rw [cc_repr_inj S S' hS, cc_repr_inj T T' hT]

/-- Witness for claim C10 on the collections P1 and P. -/
theorem claim_C10_witness :
    cc_repr [(⟨ZeroCell.P, [1]⟩ : Suid)] = cc_repr [⟨ZeroCell.P, [1]⟩] ∧
      cc_sub [(⟨ZeroCell.P, [1]⟩ : Suid)] [⟨ZeroCell.P, []⟩] =
        cc_sub [⟨ZeroCell.P, [1]⟩] [⟨ZeroCell.P, []⟩] :=
  ⟨rfl, claim_C10 [⟨ZeroCell.P, [1]⟩] [⟨ZeroCell.P, [1]⟩] [⟨ZeroCell.P, []⟩]
    [⟨ZeroCell.P, []⟩] rfl rfl⟩

end Rheal
